import Mathlib

/-!
TextGames: Hangman.cpp and WordScramble.cpp.

A shallow embedding of the two console games.  A `std::string` is a `List Char`
(one `Char` per byte of the C++ string), `int` counters are `Int`, `std::cin` is
an explicit stream value, and `rand()` is an arbitrary stream `Nat → Nat` read
through a call counter.  Loops that wait for user input take a fuel argument.
-/

namespace TextGames

/-! ## Strings -/

/-- The C++ `str[i]`; for `i = str.size()` it is the terminating `'\0'`. -/
def charAt (str : List Char) (i : Nat) : Char :=
  str.getD i (Char.ofNat 0)

/-- The C++ `str.find_first_not_of(c)`; `none` stands for `string::npos`. -/
def find_first_not_of : List Char → Char → Option Nat
  | [], _ => none
  | x :: xs, c => if x ≠ c then some 0 else (find_first_not_of xs c).map (· + 1)

/-- The C++ `str.find_last_not_of(c)`; `none` stands for `string::npos`. -/
def find_last_not_of : List Char → Char → Option Nat
  | [], _ => none
  | x :: xs, c =>
    match find_last_not_of xs c with
    | some i => some (i + 1)
    | none => if x ≠ c then some 0 else none

/-- The C++ `str.substr(pos, n)` for `pos ≤ str.size()`. -/
def substr (str : List Char) (pos n : Nat) : List Char :=
  (str.drop pos).take n

/-- The C++ `str.substr(pos)`. -/
def substrFrom (str : List Char) (pos : Nat) : List Char :=
  str.drop pos

/-- The function `trim` (the same text in both programs): strips the spaces at
both ends.  When a first non-space exists a last one exists too, so the `none`
branch of the inner match is never taken. -/
def trim (str : List Char) : List Char :=
  match find_first_not_of str ' ' with
  | none => []
  | some first =>
    match find_last_not_of str ' ' with
    | some last => substr str first (last - first + 1)
    | none => []

/-- The C library `::tolower` in the "C" locale. -/
def tolower (c : Char) : Char :=
  if 'A'.toNat ≤ c.toNat ∧ c.toNat ≤ 'Z'.toNat then Char.ofNat (c.toNat + 32) else c

/-- The call `transform(s.begin(), s.end(), s.begin(), ::tolower)`. -/
def toLowerStr (s : List Char) : List Char :=
  s.map tolower

/-- The C++ `str.find(c)`; `none` stands for `string::npos`. -/
def findChar : List Char → Char → Option Nat
  | [], _ => none
  | x :: xs, c => if x = c then some 0 else (findChar xs c).map (· + 1)

/-! ## WordScramble.cpp: `scramble` -/

/-- The three assignments of the loop body of `scramble`:
`temp = s[char1]; s[char1] = s[char2]; s[char2] = temp`. -/
def swapChars (s : List Char) (char1 char2 : Nat) : List Char :=
  let temp := charAt s char1
  let s1 := s.set char1 (charAt s char2)
  s1.set char2 temp

/-- The `for` loop of `scramble` with `n` iterations left; `calls` counts the
calls of `rand()` made so far, so the next two values are `rand calls` and
`rand (calls + 1)`. -/
def scrambleLoop (rand : Nat → Nat) : Nat → Nat → List Char → List Char × Nat
  | 0, calls, s => (s, calls)
  | n + 1, calls, s =>
    let char1 := rand calls % s.length
    let char2 := rand (calls + 1) % s.length
    scrambleLoop rand n (calls + 2) (swapChars s char1 char2)

/-- The function `scramble`: the loop runs for `i = 0 .. length - 1`, and the
length never changes. Returns the jumbled string and the new call counter. -/
def scramble (rand : Nat → Nat) (calls : Nat) (strToJumble : List Char) : List Char × Nat :=
  scrambleLoop rand strToJumble.length calls strToJumble

/-! ## The console -/

/-- The state of `std::cin`: the bytes not yet read and the two state bits that
`getline` looks at. -/
structure Console where
  buf : List Char
  eofbit : Bool
  failbit : Bool
  deriving DecidableEq, Repr

/-- The C++ `getline(cin, str)`, giving the new stream and the new value of
`str`.  On a stream that is no longer good the call only sets `failbit` and
leaves `str` alone.  Otherwise `str` is erased and filled with the bytes up
to the next newline, which is consumed; running into the end of the input
sets `eofbit`, and `failbit` too when nothing at all was extracted. -/
def getline (cin : Console) (str : List Char) : Console × List Char :=
  if cin.eofbit || cin.failbit then
    ({ cin with failbit := true }, str)
  else
    let line := cin.buf.takeWhile (fun c => c != '\n')
    match cin.buf.dropWhile (fun c => c != '\n') with
    | _ :: rest => ({ cin with buf := rest }, line)
    | [] => ({ buf := [], eofbit := true, failbit := line.isEmpty }, line)

/-- A console on which the given lines, each ended by a newline, wait to be read. -/
def typed (lines : List (List Char)) : Console :=
  { buf := (lines.map (fun l => l ++ ['\n'])).flatten, eofbit := false, failbit := false }

/-! ## Hangman.cpp -/

/-- The constant `MAX_TRIES`. -/
def MAX_TRIES : Int := 7

/-- The `for` loop of `updateWords`: every index `i < actualWord.length()` with
`actualWord[i] == firstChar` gets `hiddenWord[i] = firstChar`. -/
def revealLoop (actualWord : List Char) (firstChar : Char) (hiddenWord : List Char) : List Char :=
  (List.range actualWord.length).foldl
    (fun h i => if charAt actualWord i = firstChar then h.set i firstChar else h) hiddenWord

/-- The value a 32-bit `int` holds after an operation whose exact result is
`x`: the representative of `x` modulo `2^32` between `INT_MIN` and `INT_MAX`. -/
def wrapInt32 (x : Int) : Int :=
  (x + 2147483648) % 4294967296 - 2147483648

/-- The function `updateWords`: the returned `int`, then the new values of the
reference arguments `hiddenWord` and `numTriesLeft`.  `numTriesLeft--` is a
decrement of a 32-bit `int`. -/
def updateWords (actualWord hiddenWord : List Char) (firstChar : Char) (numTriesLeft : Int) :
    Int × List Char × Int :=
  if (findChar actualWord firstChar).isSome then
    (0, revealLoop actualWord firstChar hiddenWord, numTriesLeft)
  else
    if wrapInt32 (numTriesLeft - 1) ≤ 0 then (-1, hiddenWord, wrapInt32 (numTriesLeft - 1))
    else (0, hiddenWord, wrapInt32 (numTriesLeft - 1))

/-- The value of a `char` as `operator<` compares it: `char` is signed, so the
bytes from 0x80 on are negative. -/
def charValue (c : Char) : Int :=
  if c.toNat < 128 then (c.toNat : Int) else (c.toNat : Int) - 256

/-- Insertion of one character into a sorted string. -/
def insertChar (c : Char) : List Char → List Char
  | [] => [c]
  | x :: xs => if charValue c ≤ charValue x then c :: x :: xs else x :: insertChar c xs

/-- The call `sort(lettersUsed.begin(), lettersUsed.end())`, in the order of
`char`. -/
def sortChars (s : List Char) : List Char :=
  s.foldr insertChar []

/-- The variables of `gameLoop` that change while it runs, and `std::cin`. -/
structure Session where
  hiddenWord : List Char
  lettersUsed : List Char
  guess : List Char
  numTriesLeft : Int
  cin : Console
  deriving DecidableEq, Repr

/-- One pass through the body of the `while` loop of `gameLoop`.  The flag is
`true` when the pass leaves the function through `return -1`; otherwise control
goes back to the loop test (through `continue` or by reaching the end). -/
def loopBody (actualWord : List Char) (s : Session) : Bool × Session :=
  let (cin, raw) := getline s.cin s.guess
  let guess := toLowerStr (trim raw)
  let firstChar := charAt guess 0
  if (findChar s.lettersUsed firstChar).isSome then
    (false, { s with guess := guess, cin := cin })
  else
    let lettersUsed := sortChars (s.lettersUsed ++ [firstChar])
    let (ret, hiddenWord, numTriesLeft) :=
      updateWords actualWord s.hiddenWord firstChar s.numTriesLeft
    (ret != 0, { hiddenWord := hiddenWord, lettersUsed := lettersUsed, guess := guess,
                 numTriesLeft := numTriesLeft, cin := cin })

/-- The `while` loop of `gameLoop`; the fuel bounds the number of times the loop
test is evaluated, `none` means the loop is still running when it is used up. -/
def gameLoopFrom (actualWord : List Char) : Nat → Session → Option (Int × Session)
  | 0, _ => none
  | fuel + 1, s =>
    if s.hiddenWord = actualWord then some (0, s)
    else
      let (lost, s1) := loopBody actualWord s
      if lost then some (-1, s1) else gameLoopFrom actualWord fuel s1

/-- The function `gameLoop`: `numTriesLeft` starts at `MAX_TRIES`. -/
def gameLoop (fuel : Nat) (actualWord hiddenWord lettersUsed guess : List Char) (cin : Console) :
    Option (Int × Session) :=
  gameLoopFrom actualWord fuel
    { hiddenWord := hiddenWord, lettersUsed := lettersUsed, guess := guess,
      numTriesLeft := MAX_TRIES, cin := cin }

/-- The session after `k` passes through the loop body, with the loop test and
the `return` left out: the sequence of states the guesses produce. -/
def afterGuesses (actualWord : List Char) : Nat → Session → Session
  | 0, s => s
  | k + 1, s => afterGuesses actualWord k (loopBody actualWord s).2

/-- The string `hiddenWord(actualWord.length(), '-')` of `main`. -/
def dashes (actualWord : List Char) : List Char :=
  List.replicate actualWord.length '-'

/-- The session `main` hands to `gameLoop` for a new word. -/
def newSession (actualWord lettersUsed guess : List Char) (cin : Console) : Session :=
  { hiddenWord := dashes actualWord, lettersUsed := lettersUsed, guess := guess,
    numTriesLeft := MAX_TRIES, cin := cin }

/-- The state `setup` of Hangman.cpp builds: the map `wordsWithClues` (as the
list of its pairs; `insert` keeps the pair already stored under a key), the
vector `words` and the counter `wordsLoaded`. -/
structure HangmanData where
  wordsWithClues : List (List Char × List Char)
  words : List (List Char)
  wordsLoaded : Int
  deriving DecidableEq, Repr

/-- The call `wordsWithClues.insert(pair(key, value))`. -/
def mapInsert (m : List (List Char × List Char)) (key value : List Char) :
    List (List Char × List Char) :=
  if m.any (fun kv => kv.1 = key) then m else m ++ [(key, value)]

/-- The body of the `while (getline(wordFile, line))` loop of `setup` in
Hangman.cpp, for one line of the file. -/
def Hangman.setupLine (d : HangmanData) (line : List Char) : HangmanData :=
  match findChar line ':' with
  | none => d
  | some delimiterPos =>
    if delimiterPos + 1 ≤ line.length then
      let hangmanWord := trim (substr line 0 delimiterPos)
      let clue := trim (substrFrom line (delimiterPos + 1))
      if hangmanWord ≠ [] then
        let hangmanWord := toLowerStr hangmanWord
        let clue := if clue ≠ [] then toLowerStr clue else ['N', '/', 'A']
        { wordsWithClues := mapInsert d.wordsWithClues hangmanWord clue,
          words := d.words ++ [hangmanWord],
          wordsLoaded := d.wordsLoaded + 1 }
      else d
    else d

/-- The function `setup` of Hangman.cpp on the lines of "Hangman.txt" (no
lines when the file cannot be opened). -/
def Hangman.setup (lines : List (List Char)) : HangmanData :=
  lines.foldl Hangman.setupLine { wordsWithClues := [], words := [], wordsLoaded := 0 }

/-- What the loop of `main` in Hangman.cpp leaves behind: the values
`actualWord` took, in order, the vector `words`, the counter, and whether
`main` left through "GAME OVER". -/
structure HangmanRun where
  drawn : List (List Char)
  words : List (List Char)
  numWordsCorrect : Int
  gameOver : Bool
  deriving DecidableEq, Repr

/-- The loop `while (!words.empty())` of `main` in Hangman.cpp.  The first
number bounds each call of `gameLoop`, the second the passes of this loop;
`none` means one of them ran out. -/
def Hangman.mainLoop (fuel : Nat) :
    Nat → List (List Char) → List Char → List Char → Console → Int → List (List Char) →
      Option HangmanRun
  | 0, _, _, _, _, _, _ => none
  | n + 1, words, lettersUsed, guess, cin, numWordsCorrect, drawn =>
    match words.getLast? with
    | none =>
      some { drawn := drawn, words := words, numWordsCorrect := numWordsCorrect,
             gameOver := false }
    | some actualWord =>
      let words := words.dropLast
      match gameLoop fuel actualWord (dashes actualWord) lettersUsed guess cin with
      | none => none
      | some (ret, s) =>
        if ret = 0 then
          Hangman.mainLoop fuel n words [] s.guess s.cin (numWordsCorrect + 1)
            (drawn ++ [actualWord])
        else
          some { drawn := drawn ++ [actualWord], words := words,
                 numWordsCorrect := numWordsCorrect, gameOver := true }

/-- Every session of a run is won: `gameLoop`, called for the words of the
stack from the top down, each time on the console and the `guess` the session
before left behind, returns 0 within the fuel. -/
def allSessionsWon (fuel : Nat) : List (List Char) → List Char → List Char → Console → Bool
  | [], _, _, _ => true
  | actualWord :: stack, lettersUsed, guess, cin =>
    match gameLoop fuel actualWord (dashes actualWord) lettersUsed guess cin with
    | none => false
    | some (ret, s) => if ret = 0 then allSessionsWon fuel stack [] s.guess s.cin else false

/-! ## WordScramble.cpp -/

/-- The constant `NUM_WORDS`. -/
def NUM_WORDS : Nat := 100

/-- The struct `WordData`. -/
structure WordData where
  word : List Char
  hint : List Char
  visited : Bool
  deriving DecidableEq, Repr

/-- The body of the reading loop of `setup` in WordScramble.cpp for one line;
`data.length` is the variable `index`. -/
def WordScramble.setupLine (data : List WordData) (line : List Char) : List WordData :=
  if data.length < NUM_WORDS then
    match findChar line ':' with
    | none => data
    | some delimiterPos =>
      if delimiterPos + 1 ≤ line.length then
        data ++ [{ word := trim (substr line 0 delimiterPos),
                   hint := trim (substrFrom line (delimiterPos + 1)),
                   visited := false }]
      else data
  else data

/-- The function `setup` of WordScramble.cpp on the lines of "words.txt"; the
returned `index` is the length of the result. -/
def WordScramble.setup (lines : List (List Char)) : List WordData :=
  lines.foldl WordScramble.setupLine []

/-- The string "quit". -/
def quitStr : List Char := ['q', 'u', 'i', 't']

/-- The string "hint". -/
def hintStr : List Char := ['h', 'i', 'n', 't']

/-- What `attemptGuess` prints after reading a guess, one constructor for each
branch of its `if` chain. -/
inductive GuessOutcome where
  | Quit
  | Solved
  | HintRequested (hint : List Char)
  | Retry
  deriving DecidableEq, Repr

/-- The `if` chain of `attemptGuess` on the trimmed guess. -/
def guessOutcome (guess actualWord hint : List Char) : GuessOutcome :=
  if guess = quitStr then GuessOutcome.Quit
  else if guess = actualWord then GuessOutcome.Solved
  else if guess = hintStr then GuessOutcome.HintRequested hint
  else GuessOutcome.Retry

/-- The function `attemptGuess`: the returned string, the new `std::cin` and the
outcomes printed, in order.  The first two branches return; after the other two
the `while` test `guess != actualWord && guess != "quit"` holds and the loop
goes round again (the source has no `return` after the loop, and the `else`
below is never reached).  `none` means the fuel ran out. -/
def attemptGuess (actualWord hint : List Char) :
    Nat → Console → List Char → List GuessOutcome →
      Option (List Char × Console × List GuessOutcome)
  | 0, _, _, _ => none
  | fuel + 1, cin, guess, log =>
    let (cin, raw) := getline cin guess
    let guess := trim raw
    match guessOutcome guess actualWord hint with
    | GuessOutcome.Quit => some (guess, cin, log ++ [GuessOutcome.Quit])
    | GuessOutcome.Solved => some (guess, cin, log ++ [GuessOutcome.Solved])
    | o =>
      if guess ≠ actualWord ∧ guess ≠ quitStr then
        attemptGuess actualWord hint fuel cin guess (log ++ [o])
      else none

/-- The variables of `main` in WordScramble.cpp during its game loop, the
console, the number of `rand()` calls made, and the list of the indices
presented as "Jumble #k". -/
structure ScrambleState where
  data : List WordData
  wordsToGuess : Int
  wordCounter : Int
  calls : Nat
  guess : List Char
  cin : Console
  shown : List Nat
  deriving DecidableEq, Repr

/-- One pass through the body of `while (wordsToGuess > 0)`; `wordsLoaded` is
the length of `data`.  The flag says that `main` returned because of "quit";
`none` means `attemptGuess` ran out of fuel (or `data` is empty). -/
def WordScramble.mainPass (rand : Nat → Nat) (fuel : Nat) (s : ScrambleState) :
    Option (Bool × ScrambleState) :=
  let randomNum := rand s.calls % s.data.length
  match s.data[randomNum]? with
  | none => none
  | some entry =>
    if !entry.visited then
      let data := s.data.set randomNum { entry with visited := true }
      let (_, calls) := scramble rand (s.calls + 1) entry.word
      match attemptGuess entry.word entry.hint fuel s.cin s.guess [] with
      | none => none
      | some (guess, cin, _) =>
        if guess = quitStr then
          some (true, { data := data, wordsToGuess := s.wordsToGuess,
                        wordCounter := s.wordCounter, calls := calls, guess := guess,
                        cin := cin, shown := s.shown ++ [randomNum] })
        else
          some (false, { data := data, wordsToGuess := s.wordsToGuess - 1,
                         wordCounter := s.wordCounter + 1, calls := calls, guess := guess,
                         cin := cin, shown := s.shown ++ [randomNum] })
    else
      some (false, { s with calls := s.calls + 1 })

/-- The state at the loop test after `n` full passes of the game loop of
WordScramble.cpp, when the loop gets that far: every one of the `n` tests found
`wordsToGuess > 0` and none of the passes ended in "quit". -/
def WordScramble.afterPasses (rand : Nat → Nat) (fuel : Nat) :
    Nat → ScrambleState → Option ScrambleState
  | 0, s => some s
  | n + 1, s =>
    if 0 < s.wordsToGuess then
      match WordScramble.mainPass rand fuel s with
      | some (false, s1) => WordScramble.afterPasses rand fuel n s1
      | _ => none
    else none

/-- The state with which `main` of WordScramble.cpp enters its game loop. -/
def WordScramble.startState (data : List WordData) (wordsToGuess : Int) (guess : List Char)
    (cin : Console) : ScrambleState :=
  { data := data, wordsToGuess := wordsToGuess, wordCounter := 1, calls := 0, guess := guess,
    cin := cin, shown := [] }

/-- The C library `isspace` in the "C" locale: space, and tab to carriage return. -/
def isspace (c : Char) : Bool :=
  decide (c = ' ' ∨ (9 ≤ c.toNat ∧ c.toNat ≤ 13))

/-- The C library `isdigit`. -/
def isdigit (c : Char) : Bool :=
  decide ('0'.toNat ≤ c.toNat ∧ c.toNat ≤ '9'.toNat)

/-- The value of a run of decimal digits. -/
def digitsValue (digits : List Char) : Nat :=
  digits.foldl (fun acc d => 10 * acc + (d.toNat - '0'.toNat)) 0

/-- The optional sign in front of a number: whether it is a minus, and the rest. -/
def stripSign : List Char → Bool × List Char
  | [] => (false, [])
  | c :: t => if c = '-' then (true, t) else if c = '+' then (false, t) else (false, c :: t)

/-- The library call `std::stoi(str)`: leading white space is skipped, then an
optional sign and the longest run of decimal digits are converted, and what
follows is ignored.  `none` stands for an exception: `std::invalid_argument`
when there is no digit, `std::out_of_range` when the value is not an `int`. -/
def stoi (str : List Char) : Option Int :=
  let signed := stripSign (str.dropWhile isspace)
  let digits := signed.2.takeWhile isdigit
  if digits = [] then none
  else
    let v : Int := if signed.1 then -(digitsValue digits : Int) else (digitsValue digits : Int)
    if v < -2147483648 ∨ 2147483647 < v then none else some v

/-- The variables of `main` in WordScramble.cpp that the prompt loop changes,
and `std::cin`. -/
structure PromptState where
  wordsToGuess : Int
  guess : List Char
  cin : Console
  deriving DecidableEq, Repr

/-- One pass through the body of `while (wordsToGuess < 10 || wordsToGuess > 20)`,
and whether "Please enter a number between 10 and 20." was printed.  When
`stoi` throws, the assignment to `wordsToGuess` does not happen. -/
def promptPass (s : PromptState) : PromptState × Bool :=
  let (cin, guess) := getline s.cin s.guess
  match stoi guess with
  | some v =>
    ({ wordsToGuess := v, guess := guess, cin := cin }, decide (v < 10 ∨ v > 20))
  | none =>
    ({ wordsToGuess := s.wordsToGuess, guess := guess, cin := cin }, true)

/-- The prompt loop of `main` in WordScramble.cpp; `none` means the fuel ran
out while the loop was still asking. -/
def promptLoop : Nat → PromptState → Option PromptState
  | 0, _ => none
  | fuel + 1, s =>
    if s.wordsToGuess < 10 ∨ s.wordsToGuess > 20 then promptLoop fuel (promptPass s).1
    else some s

/-- The state with which `main` of WordScramble.cpp enters the prompt loop:
`wordsToGuess = 0` and an empty `guess`. -/
def promptStart (cin : Console) : PromptState :=
  { wordsToGuess := 0, guess := [], cin := cin }

/-- The wording of the spec, "the line is a number in the closed range
[10, 20]": the whole line is a decimal numeral, an optional sign followed by
digits and nothing else, and its value lies between 10 and 20.  (A line with
a decimal point, such as "20.9", is no such numeral; as a decimal fraction it
would lie outside the range.) -/
def isNumberInRange (line : List Char) : Bool :=
  let signed := stripSign line
  decide (signed.2 ≠ [] ∧ (∀ c ∈ signed.2, isdigit c = true) ∧ signed.1 = false ∧
    10 ≤ digitsValue signed.2 ∧ digitsValue signed.2 ≤ 20)

/-- The line starts, after white space and an optional plus sign, with a run
of decimal digits whose value lies between 10 and 20, the run ending at the
end of the line or at a character that is not a digit. -/
def startsWithNumberInRange (line : List Char) : Prop :=
  ∃ ws sign digits rest, line = ws ++ (sign ++ (digits ++ rest)) ∧
    (∀ c ∈ ws, isspace c = true) ∧ (sign = [] ∨ sign = ['+']) ∧
    digits ≠ [] ∧ (∀ c ∈ digits, isdigit c = true) ∧
    (∀ c, rest.head? = some c → isdigit c = false) ∧
    10 ≤ digitsValue digits ∧ digitsValue digits ≤ 20

/-- The invariant of the game loop of WordScramble.cpp: the indices presented
are distinct, they are exactly the visited entries, and together with
`wordsToGuess` they add up to the number of words asked for. -/
def ScrambleInv (target : Int) (len : Nat) (s : ScrambleState) : Prop :=
  s.data.length = len ∧ s.shown.Nodup ∧
  (∀ i, i ∈ s.shown ↔ ∃ e, s.data[i]? = some e ∧ e.visited = true) ∧
  (s.shown.length : Int) + s.wordsToGuess = target

/-! ### Lemmas on `scramble` -/

theorem swapChars_length (s : List Char) (i j : Nat) : (swapChars s i j).length = s.length := by
  simp [swapChars]

theorem charAt_eq_getElem (s : List Char) (i : Nat) (h : i < s.length) : charAt s i = s[i] := by
  simp [charAt, List.getD_eq_getElem?_getD, List.getElem?_eq_getElem h]

theorem swapChars_perm (s : List Char) (i j : Nat) (hi : i < s.length) (hj : j < s.length) :
    (swapChars s i j).Perm s := by
  have hsw : swapChars s i j = (s.set i s[j]).set j s[i] := by
    simp only [swapChars, charAt_eq_getElem s i hi, charAt_eq_getElem s j hj]
  rw [hsw, List.perm_iff_count]
  intro a
  have hj2 : j < (s.set i s[j]).length := by simpa using hj
  rw [List.count_set _ _ _ _ hj2, List.count_set _ _ _ _ hi]
  have h1 : (if (s[i] == a) = true then 1 else 0) ≤ s.count a := by
    split
    · next h =>
      have : s[i] = a := by simpa using h
      exact List.count_pos_iff.mpr (this ▸ List.getElem_mem hi)
    · exact Nat.zero_le _
  have h2 : (if (s[j] == a) = true then 1 else 0) ≤ s.count a := by
    split
    · next h =>
      have : s[j] = a := by simpa using h
      exact List.count_pos_iff.mpr (this ▸ List.getElem_mem hj)
    · exact Nat.zero_le _
  by_cases hij : i = j
  · subst hij
    simp only [List.getElem_set_self]
    omega
  · rw [List.getElem_set_ne hij]
    omega

theorem scrambleLoop_perm (rand : Nat → Nat) (n calls : Nat) (s : List Char) :
    (scrambleLoop rand n calls s).1.Perm s := by
  induction n generalizing calls s with
  | zero => simp [scrambleLoop]
  | succ n ih =>
    simp only [scrambleLoop]
    cases s with
    | nil => simpa [swapChars] using ih (calls + 2) []
    | cons x xs =>
      have hpos : 0 < (x :: xs).length := by simp
      exact (ih _ _).trans
        (swapChars_perm _ _ _ (Nat.mod_lt _ hpos) (Nat.mod_lt _ hpos))

theorem scrambleLoop_calls (rand : Nat → Nat) (n calls : Nat) (s : List Char) :
    (scrambleLoop rand n calls s).2 = calls + 2 * n := by
  induction n generalizing calls s with
  | zero => simp [scrambleLoop]
  | succ n ih => simp only [scrambleLoop, ih]; omega

/-- C1: for every string and every stream of `rand()` values, `scramble` leaves
a string of the same length with the same multiset of characters (a
permutation of the input); a one-character word comes back unchanged. -/
theorem scramble_is_anagram (rand : Nat → Nat) (calls : Nat) (W : List Char) :
    (scramble rand calls W).1.length = W.length ∧
    (scramble rand calls W).1.Perm W ∧
    (∀ a : Char, (scramble rand calls W).1.count a = W.count a) ∧
    (∀ c : Char, (scramble rand calls [c]).1 = [c]) ∧
    (scramble rand calls []).1 = [] := by
  have hp : ∀ s : List Char, (scramble rand calls s).1.Perm s :=
    fun s => scrambleLoop_perm rand s.length calls s
  refine ⟨(hp W).length_eq, hp W, fun a => (hp W).count_eq a, fun c => ?_, ?_⟩
  · exact List.perm_singleton.mp (hp [c])
  · exact List.perm_nil.mp (hp [])

/-! ### Lemmas on `updateWords` -/

theorem findChar_isSome (l : List Char) (c : Char) : (findChar l c).isSome = true ↔ c ∈ l := by
  induction l with
  | nil => simp [findChar]
  | cons x xs ih =>
    by_cases h : x = c
    · simp [findChar, h]
    · have h2 : ¬ c = x := fun e => h e.symm
      simp [findChar, h, h2, ← ih]

theorem revealFold_getElem? (actualWord : List Char) (c : Char) (n : Nat) (h : List Char)
    (i : Nat) :
    ((List.range n).foldl
      (fun h i => if charAt actualWord i = c then h.set i c else h) h)[i]? =
      if i < n ∧ charAt actualWord i = c then (h[i]?).map (fun _ => c) else h[i]? := by
  induction n with
  | zero => simp
  | succ n ih =>
    rw [List.range_succ, List.foldl_append, List.foldl_cons, List.foldl_nil]
    by_cases hc : charAt actualWord n = c
    · rw [if_pos hc, List.getElem?_set', ih]
      by_cases hin : n = i
      · subst hin
        simp [hc]
        rfl
      · have : i < n + 1 ↔ i < n := by omega
        simp [hin, this]
    · rw [if_neg hc, ih]
      by_cases hin : n = i
      · subst hin
        simp [hc]
      · have : i < n + 1 ↔ i < n := by omega
        simp [this]

theorem revealLoop_eq_zipWith (actualWord hiddenWord : List Char) (c : Char)
    (hlen : hiddenWord.length = actualWord.length) :
    revealLoop actualWord c hiddenWord =
      List.zipWith (fun a h => if a = c then c else h) actualWord hiddenWord := by
  apply List.ext_getElem?
  intro i
  rw [revealLoop, revealFold_getElem?, List.getElem?_zipWith']
  by_cases hi : i < actualWord.length
  · have hi2 : i < hiddenWord.length := by omega
    simp only [charAt, List.getD_eq_getElem?_getD, List.getElem?_eq_getElem hi,
      List.getElem?_eq_getElem hi2, hi, true_and, Option.getD_some, Option.map_some',
      Option.some_bind]
    split <;> rfl
  · have hi2 : ¬ i < hiddenWord.length := by omega
    simp [hi, List.getElem?_eq_none (Nat.le_of_not_lt hi),
      List.getElem?_eq_none (Nat.le_of_not_lt hi2)]

theorem zipWith_reveal_count (c : Char) (actualWord hiddenWord : List Char)
    (hlen : hiddenWord.length = actualWord.length) (hc : c ∉ hiddenWord) :
    (List.zipWith (fun a h => if a = c then c else h) actualWord hiddenWord).count c =
      actualWord.count c := by
  induction actualWord generalizing hiddenWord with
  | nil => simp
  | cons a as ih =>
    cases hiddenWord with
    | nil => simp at hlen
    | cons h hs =>
      simp only [List.mem_cons, not_or] at hc
      simp only [List.length_cons, Nat.add_right_cancel_iff] at hlen
      rw [List.zipWith_cons_cons, List.count_cons, List.count_cons, ih hs hlen hc.2]
      by_cases hac : a = c
      · simp [hac]
      · have : ¬ h = c := fun e => hc.1 e.symm
        simp [hac, this]

theorem charAt_zipWith_reveal (c : Char) (actualWord hiddenWord : List Char)
    (hlen : hiddenWord.length = actualWord.length) (i : Nat) (hi : i < actualWord.length) :
    charAt (List.zipWith (fun a h => if a = c then c else h) actualWord hiddenWord) i =
      if charAt actualWord i = c then c else charAt hiddenWord i := by
  have hi2 : i < hiddenWord.length := by omega
  simp only [charAt, List.getD_eq_getElem?_getD, List.getElem?_zipWith',
    List.getElem?_eq_getElem hi, List.getElem?_eq_getElem hi2, Option.map_some',
    Option.some_bind, Option.getD_some]

theorem wrapInt32_of_int (x : Int) (h1 : -2147483648 ≤ x) (h2 : x ≤ 2147483647) :
    wrapInt32 x = x := by
  unfold wrapInt32
  omega

/-- C2, as stated, fails in two places.  On the target "a-b" with the mask
"---" the guess '-' occurs once in the target, and the resulting mask "---"
has it at three positions, not at exactly that one.  And at the smallest `int`
a miss does not leave `n - 1`: the decrement wraps to the largest `int`, and
`updateWords` returns 0. -/
theorem updateWords_dash_and_int_min :
    (updateWords ['a', '-', 'b'] ['-', '-', '-'] '-' 7).2.1 = ['-', '-', '-'] ∧
    (['a', '-', 'b'] : List Char).count '-' = 1 ∧
    (updateWords ['a', '-', 'b'] ['-', '-', '-'] '-' 7).2.1.count '-' = 3 ∧
    updateWords ['c', 'a', 't'] ['-', '-', '-'] 'x' (-2147483648) =
      (0, ['-', '-', '-'], 2147483647) := by
  decide

/-- C2 as amended: with a mask as long as the target, `updateWords` on a
character that occurs in the target returns 0, leaves the tries counter alone
and writes the character at every position where the target has it, every
other position of the mask keeping its value, so that a mask without the
character ends up with it at exactly the `k` positions of the target; on a
character that does not occur the mask is unchanged and the counter is
decremented as a 32-bit `int`, which is `n - 1` for every `int` above
`INT_MIN`, the function returning -1 exactly when the new counter is not
positive. -/
theorem updateWords_hit_or_miss (actualWord hiddenWord : List Char) (c : Char) (n : Int)
    (hlen : hiddenWord.length = actualWord.length) :
    (c ∈ actualWord →
      (updateWords actualWord hiddenWord c n).1 = 0 ∧
      (updateWords actualWord hiddenWord c n).2.2 = n ∧
      (updateWords actualWord hiddenWord c n).2.1.length = hiddenWord.length ∧
      (∀ i, i < actualWord.length →
        charAt (updateWords actualWord hiddenWord c n).2.1 i =
          if charAt actualWord i = c then c else charAt hiddenWord i) ∧
      (c ∉ hiddenWord →
        (updateWords actualWord hiddenWord c n).2.1.count c = actualWord.count c)) ∧
    (c ∉ actualWord →
      (updateWords actualWord hiddenWord c n).2.1 = hiddenWord ∧
      (updateWords actualWord hiddenWord c n).2.2 = wrapInt32 (n - 1) ∧
      (-2147483648 < n → n ≤ 2147483647 →
        (updateWords actualWord hiddenWord c n).2.2 = n - 1) ∧
      (updateWords actualWord hiddenWord c n).1 =
        if (updateWords actualWord hiddenWord c n).2.2 ≤ 0 then -1 else 0) := by
  constructor
  · intro hmem
    have hfind : (findChar actualWord c).isSome = true := (findChar_isSome _ _).mpr hmem
    simp only [updateWords, hfind, if_true, revealLoop_eq_zipWith _ _ _ hlen]
    refine ⟨trivial, trivial, ?_, ?_, ?_⟩
    · simp [List.length_zipWith, hlen]
    · intro i hi
      exact charAt_zipWith_reveal c actualWord hiddenWord hlen i hi
    · intro hc
      exact zipWith_reveal_count c actualWord hiddenWord hlen hc
  · intro hmem
    have hfind : (findChar actualWord c).isSome = false := by
      cases h : (findChar actualWord c).isSome
      · rfl
      · exact absurd ((findChar_isSome _ _).mp h) hmem
    have h2 : (updateWords actualWord hiddenWord c n).2.2 = wrapInt32 (n - 1) := by
      by_cases hn : wrapInt32 (n - 1) ≤ 0 <;> simp [updateWords, hfind, hn]
    refine ⟨?_, h2, fun hlo hhi => ?_, ?_⟩
    · by_cases hn : wrapInt32 (n - 1) ≤ 0 <;> simp [updateWords, hfind, hn]
    · rw [h2]
      exact wrapInt32_of_int _ (by omega) (by omega)
    · rw [h2]
      by_cases hn : wrapInt32 (n - 1) ≤ 0 <;> simp [updateWords, hfind, hn]

theorem updateWords_hit_or_miss_witness :
    (['-', '-', '-'].length = ['c', 'a', 't'].length) ∧
    (updateWords ['c', 'a', 't'] ['-', '-', '-'] 'a' 7).2.1.count 'a' = 1 ∧
    (updateWords ['c', 'a', 't'] ['-', '-', '-'] 'x' 7).2.2 = 7 - 1 :=
  ⟨by decide,
   ((updateWords_hit_or_miss ['c', 'a', 't'] ['-', '-', '-'] 'a' 7 (by decide)).1
      (by decide)).2.2.2.2 (by decide),
   ((updateWords_hit_or_miss ['c', 'a', 't'] ['-', '-', '-'] 'x' 7 (by decide)).2
      (by decide)).2.2.1 (by decide) (by decide)⟩

/-! ### Lemmas on `gameLoop` -/

theorem updateWords_fst_ne_zero (actualWord hiddenWord : List Char) (c : Char) (n : Int)
    (hn : 0 < n ∧ n ≤ 2147483647) :
    (updateWords actualWord hiddenWord c n).1 ≠ 0 →
      (updateWords actualWord hiddenWord c n).2.1 = hiddenWord ∧
      (updateWords actualWord hiddenWord c n).2.2 = 0 := by
  have hw : wrapInt32 (n - 1) = n - 1 := wrapInt32_of_int _ (by omega) (by omega)
  unfold updateWords
  rw [hw]
  by_cases h1 : (findChar actualWord c).isSome = true
  · simp [h1]
  · by_cases h2 : n - 1 ≤ 0
    · simp only [h1, h2, if_true, Bool.false_eq_true, if_false]
      intro _
      exact ⟨trivial, by omega⟩
    · simp [h1, h2]

theorem updateWords_fst_eq_zero (actualWord hiddenWord : List Char) (c : Char) (n : Int)
    (hn : 0 < n ∧ n ≤ 2147483647) :
    (updateWords actualWord hiddenWord c n).1 = 0 →
      0 < (updateWords actualWord hiddenWord c n).2.2 ∧
      (updateWords actualWord hiddenWord c n).2.2 ≤ 2147483647 := by
  have hw : wrapInt32 (n - 1) = n - 1 := wrapInt32_of_int _ (by omega) (by omega)
  unfold updateWords
  rw [hw]
  by_cases h1 : (findChar actualWord c).isSome = true
  · simp [h1, hn]
  · by_cases h2 : n - 1 ≤ 0
    · simp [h1, h2]
    · simp only [h1, h2, if_false, Bool.false_eq_true]
      intro _
      exact ⟨by omega, by omega⟩

theorem loopBody_lost (actualWord : List Char) (s : Session)
    (hn : 0 < s.numTriesLeft ∧ s.numTriesLeft ≤ 2147483647)
    (h : (loopBody actualWord s).1 = true) :
    (loopBody actualWord s).2.hiddenWord = s.hiddenWord ∧
    (loopBody actualWord s).2.numTriesLeft = 0 := by
  unfold loopBody at h ⊢
  simp only at h ⊢
  split at h
  · simp at h
  · next hused =>
    rw [if_neg hused]
    simp only [bne_iff_ne, ne_eq] at h
    exact updateWords_fst_ne_zero _ _ _ _ hn h

theorem loopBody_not_lost (actualWord : List Char) (s : Session)
    (hn : 0 < s.numTriesLeft ∧ s.numTriesLeft ≤ 2147483647)
    (h : (loopBody actualWord s).1 = false) :
    0 < (loopBody actualWord s).2.numTriesLeft ∧
    (loopBody actualWord s).2.numTriesLeft ≤ 2147483647 := by
  unfold loopBody at h ⊢
  simp only at h ⊢
  split at h
  · next hused =>
    rw [if_pos hused]
    exact hn
  · next hused =>
    rw [if_neg hused]
    simp only [bne_eq_false_iff_eq] at h
    exact updateWords_fst_eq_zero _ _ _ _ hn h

theorem gameLoopFrom_lost_iff (actualWord : List Char) (s : Session) (hn : 0 < s.numTriesLeft ∧ s.numTriesLeft ≤ 2147483647) :
    (∃ fuel r, gameLoopFrom actualWord fuel s = some (-1, r)) ↔
    (∃ k, (afterGuesses actualWord k s).numTriesLeft = 0 ∧
      ∀ j, j ≤ k → (afterGuesses actualWord j s).hiddenWord ≠ actualWord) := by
  constructor
  · rintro ⟨fuel, r, h⟩
    induction fuel generalizing s with
    | zero => simp [gameLoopFrom] at h
    | succ fuel ih =>
      rw [gameLoopFrom] at h
      by_cases hw : s.hiddenWord = actualWord
      · simp [hw] at h
      · rw [if_neg hw] at h
        simp only at h
        cases hl : (loopBody actualWord s).1
        · rw [hl] at h
          simp only [Bool.false_eq_true, if_false] at h
          obtain ⟨k, hk1, hk2⟩ := ih _ (loopBody_not_lost _ _ hn hl) h
          refine ⟨k + 1, hk1, ?_⟩
          intro j hj
          cases j with
          | zero => exact hw
          | succ j => exact hk2 j (by omega)
        · obtain ⟨h1, h2⟩ := loopBody_lost _ _ hn hl
          refine ⟨1, h2, ?_⟩
          intro j hj
          have : j = 0 ∨ j = 1 := by omega
          rcases this with rfl | rfl
          · exact hw
          · simp only [afterGuesses]
            rw [h1]
            exact hw
  · rintro ⟨k, hk1, hk2⟩
    induction k generalizing s with
    | zero =>
      simp only [afterGuesses] at hk1
      omega
    | succ k ih =>
      have hw : s.hiddenWord ≠ actualWord := hk2 0 (by omega)
      cases hl : (loopBody actualWord s).1
      · obtain ⟨fuel, r, hr⟩ := ih _ (loopBody_not_lost _ _ hn hl) hk1
          (fun j hj => hk2 (j + 1) (by omega))
        refine ⟨fuel + 1, r, ?_⟩
        rw [gameLoopFrom, if_neg hw]
        simp only [hl, Bool.false_eq_true, if_false]
        exact hr
      · refine ⟨1, (loopBody actualWord s).2, ?_⟩
        rw [gameLoopFrom, if_neg hw]
        simp only [hl, if_true]

theorem gameLoopFrom_won_iff (actualWord : List Char) (s : Session) (hn : 0 < s.numTriesLeft ∧ s.numTriesLeft ≤ 2147483647) :
    (∃ fuel r, gameLoopFrom actualWord fuel s = some (0, r)) ↔
    (∃ k, (afterGuesses actualWord k s).hiddenWord = actualWord ∧
      ∀ j, j ≤ k → 0 < (afterGuesses actualWord j s).numTriesLeft) := by
  constructor
  · rintro ⟨fuel, r, h⟩
    induction fuel generalizing s with
    | zero => simp [gameLoopFrom] at h
    | succ fuel ih =>
      rw [gameLoopFrom] at h
      by_cases hw : s.hiddenWord = actualWord
      · refine ⟨0, hw, ?_⟩
        intro j hj
        have : j = 0 := by omega
        subst this
        exact hn.1
      · rw [if_neg hw] at h
        simp only at h
        cases hl : (loopBody actualWord s).1
        · rw [hl] at h
          simp only [Bool.false_eq_true, if_false] at h
          obtain ⟨k, hk1, hk2⟩ := ih _ (loopBody_not_lost _ _ hn hl) h
          refine ⟨k + 1, hk1, ?_⟩
          intro j hj
          cases j with
          | zero => exact hn.1
          | succ j => exact hk2 j (by omega)
        · rw [hl] at h
          simp at h
  · rintro ⟨k, hk1, hk2⟩
    induction k generalizing s with
    | zero =>
      refine ⟨1, s, ?_⟩
      simp only [afterGuesses] at hk1
      rw [gameLoopFrom, if_pos hk1]
    | succ k ih =>
      by_cases hw : s.hiddenWord = actualWord
      · exact ⟨1, s, by rw [gameLoopFrom, if_pos hw]⟩
      · cases hl : (loopBody actualWord s).1
        · obtain ⟨fuel, r, hr⟩ := ih _ (loopBody_not_lost _ _ hn hl) hk1
            (fun j hj => hk2 (j + 1) (by omega))
          refine ⟨fuel + 1, r, ?_⟩
          rw [gameLoopFrom, if_neg hw]
          simp only [hl, Bool.false_eq_true, if_false]
          exact hr
        · have h1 := (loopBody_lost _ _ hn hl).2
          have h2 := hk2 1 (by omega)
          simp only [afterGuesses] at h2
          omega

theorem gameLoopFrom_result (actualWord : List Char) (fuel : Nat) (s : Session)
    (hn : 0 < s.numTriesLeft ∧ s.numTriesLeft ≤ 2147483647) (ret : Int) (r : Session)
    (h : gameLoopFrom actualWord fuel s = some (ret, r)) :
    (ret = 0 ∧ r.hiddenWord = actualWord ∧ 0 < r.numTriesLeft) ∨
    (ret = -1 ∧ r.hiddenWord ≠ actualWord ∧ r.numTriesLeft = 0) := by
  induction fuel generalizing s with
  | zero => simp [gameLoopFrom] at h
  | succ fuel ih =>
    rw [gameLoopFrom] at h
    by_cases hw : s.hiddenWord = actualWord
    · rw [if_pos hw] at h
      simp only [Option.some.injEq, Prod.mk.injEq] at h
      obtain ⟨h1, h2⟩ := h
      subst h1 h2
      exact Or.inl ⟨rfl, hw, hn.1⟩
    · rw [if_neg hw] at h
      simp only at h
      cases hl : (loopBody actualWord s).1
      · rw [hl] at h
        simp only [Bool.false_eq_true, if_false] at h
        exact ih _ (loopBody_not_lost _ _ hn hl) h
      · rw [hl] at h
        simp only [if_true, Option.some.injEq, Prod.mk.injEq] at h
        obtain ⟨h1, h2⟩ := h
        subst h1 h2
        obtain ⟨h3, h4⟩ := loopBody_lost _ _ hn hl
        exact Or.inr ⟨rfl, by rw [h3]; exact hw, h4⟩

/-- C3: started on the all-dashes mask with no letters used and `MAX_TRIES`
tries, `gameLoop` returns -1 (Lost) exactly when the guesses bring the tries
counter to 0 while the mask has not yet been equal to the target, and returns 0
(Won) exactly when they bring the mask to the target while tries are left,
however many; it ends with the mask equal to the target in the first case
only.  For the target "cat" the guesses c, a, t give the masks "c--", "ca-",
"cat" and a win, and the guesses x, y, z, q, w, e, r lose at the 7th guess and
not before. -/
theorem gameLoop_lost_iff_won_iff :
    (∀ (actualWord guess : List Char) (cin : Console),
      ((∃ fuel r, gameLoop fuel actualWord (dashes actualWord) [] guess cin = some (-1, r)) ↔
        (∃ k, (afterGuesses actualWord k (newSession actualWord [] guess cin)).numTriesLeft = 0 ∧
          ∀ j, j ≤ k →
            (afterGuesses actualWord j (newSession actualWord [] guess cin)).hiddenWord
              ≠ actualWord)) ∧
      ((∃ fuel r, gameLoop fuel actualWord (dashes actualWord) [] guess cin = some (0, r)) ↔
        (∃ k, (afterGuesses actualWord k (newSession actualWord [] guess cin)).hiddenWord
              = actualWord ∧
          ∀ j, j ≤ k →
            0 < (afterGuesses actualWord j (newSession actualWord [] guess cin)).numTriesLeft)) ∧
      (∀ fuel ret r, gameLoop fuel actualWord (dashes actualWord) [] guess cin = some (ret, r) →
        (ret = 0 ∧ r.hiddenWord = actualWord ∧ 0 < r.numTriesLeft) ∨
        (ret = -1 ∧ r.hiddenWord ≠ actualWord ∧ r.numTriesLeft = 0))) ∧
    ((afterGuesses ['c', 'a', 't'] 1
        (newSession ['c', 'a', 't'] [] [] (typed [['c'], ['a'], ['t']]))).hiddenWord
        = ['c', '-', '-'] ∧
     (afterGuesses ['c', 'a', 't'] 2
        (newSession ['c', 'a', 't'] [] [] (typed [['c'], ['a'], ['t']]))).hiddenWord
        = ['c', 'a', '-'] ∧
     (afterGuesses ['c', 'a', 't'] 3
        (newSession ['c', 'a', 't'] [] [] (typed [['c'], ['a'], ['t']]))).hiddenWord
        = ['c', 'a', 't'] ∧
     gameLoop 3 ['c', 'a', 't'] (dashes ['c', 'a', 't']) [] []
        (typed [['c'], ['a'], ['t']]) = none ∧
     gameLoop 4 ['c', 'a', 't'] (dashes ['c', 'a', 't']) [] []
        (typed [['c'], ['a'], ['t']]) =
        some (0, { hiddenWord := ['c', 'a', 't'], lettersUsed := ['a', 'c', 't'],
                   guess := ['t'], numTriesLeft := 7, cin := typed [] })) ∧
    (gameLoop 6 ['c', 'a', 't'] (dashes ['c', 'a', 't']) [] []
        (typed [['x'], ['y'], ['z'], ['q'], ['w'], ['e'], ['r']]) = none ∧
     gameLoop 7 ['c', 'a', 't'] (dashes ['c', 'a', 't']) [] []
        (typed [['x'], ['y'], ['z'], ['q'], ['w'], ['e'], ['r']]) =
        some (-1, { hiddenWord := ['-', '-', '-'],
                    lettersUsed := ['e', 'q', 'r', 'w', 'x', 'y', 'z'],
                    guess := ['r'], numTriesLeft := 0, cin := typed [] })) := by
  refine ⟨fun actualWord guess cin => ?_, by decide, by decide⟩
  have hn : 0 < (newSession actualWord [] guess cin).numTriesLeft ∧
      (newSession actualWord [] guess cin).numTriesLeft ≤ 2147483647 := by
    simp [newSession, MAX_TRIES]
  exact ⟨gameLoopFrom_lost_iff actualWord _ hn, gameLoopFrom_won_iff actualWord _ hn,
    fun fuel ret r h => gameLoopFrom_result actualWord fuel _ hn ret r h⟩

/-! ### Reading one line -/

theorem getline_line (line rest str : List Char) (hnl : '\n' ∉ line) :
    getline { buf := line ++ '\n' :: rest, eofbit := false, failbit := false } str =
      ({ buf := rest, eofbit := false, failbit := false }, line) := by
  have hall : ∀ a ∈ line, (fun c : Char => c != '\n') a = true := by
    intro a ha
    simp only [bne_iff_ne, ne_eq]
    rintro rfl
    exact hnl ha
  simp only [getline, Bool.or_self, Bool.false_eq_true, if_false,
    List.takeWhile_append_of_pos hall, List.dropWhile_append_of_pos hall]
  simp [List.takeWhile_cons, List.dropWhile_cons]

/-- C4: a line whose evaluated character, the first one after `trim` and
lowercasing, is already in `lettersUsed` changes neither the mask nor
`lettersUsed` nor the tries counter; the pass does not leave `gameLoop`, and a
session that was in progress goes on with the next line.  (The string read is
the input line whenever the console holds one.) -/
theorem already_used_guess_changes_nothing (actualWord : List Char) (s : Session)
    (hused : charAt (toLowerStr (trim (getline s.cin s.guess).2)) 0 ∈ s.lettersUsed) :
    (loopBody actualWord s).1 = false ∧
    (loopBody actualWord s).2.hiddenWord = s.hiddenWord ∧
    (loopBody actualWord s).2.lettersUsed = s.lettersUsed ∧
    (loopBody actualWord s).2.numTriesLeft = s.numTriesLeft ∧
    (loopBody actualWord s).2.guess = toLowerStr (trim (getline s.cin s.guess).2) ∧
    (loopBody actualWord s).2.cin = (getline s.cin s.guess).1 ∧
    (∀ fuel, s.hiddenWord ≠ actualWord →
      gameLoopFrom actualWord (fuel + 1) s =
        gameLoopFrom actualWord fuel (loopBody actualWord s).2) ∧
    (∀ line rest : List Char, '\n' ∉ line →
      s.cin = { buf := line ++ '\n' :: rest, eofbit := false, failbit := false } →
      (getline s.cin s.guess).2 = line) := by
  have hbody : loopBody actualWord s =
      (false, { s with guess := toLowerStr (trim (getline s.cin s.guess).2),
                       cin := (getline s.cin s.guess).1 }) := by
    have hfind := (findChar_isSome _ _).mpr hused
    simp only [loopBody, hfind, if_true]
  refine ⟨by rw [hbody], by rw [hbody], by rw [hbody], by rw [hbody], by rw [hbody],
    by rw [hbody], fun fuel hw => ?_, fun line rest hnl hcin => ?_⟩
  · rw [gameLoopFrom, if_neg hw, hbody]
    simp
  · rw [hcin, getline_line line rest s.guess hnl]

theorem already_used_guess_changes_nothing_witness :
    (loopBody ['c', 'a', 't']
      { hiddenWord := ['c', '-', '-'], lettersUsed := ['c', 'x'], guess := [],
        numTriesLeft := 6,
        cin := { buf := [' ', 'X', 'y', '\n', 'a', '\n'], eofbit := false,
                 failbit := false } }).2.numTriesLeft = 6 :=
  (already_used_guess_changes_nothing ['c', 'a', 't']
    { hiddenWord := ['c', '-', '-'], lettersUsed := ['c', 'x'], guess := [],
      numTriesLeft := 6,
      cin := { buf := [' ', 'X', 'y', '\n', 'a', '\n'], eofbit := false, failbit := false } }
    (by decide)).2.2.2.1

/-! ### Lemmas on the Hangman word pool -/

theorem Hangman.setupLine_cases (d : HangmanData) (line : List Char) :
    Hangman.setupLine d line = d ∨
    ∃ delimiterPos, findChar line ':' = some delimiterPos ∧
      trim (substr line 0 delimiterPos) ≠ [] ∧
      (Hangman.setupLine d line).words =
        d.words ++ [toLowerStr (trim (substr line 0 delimiterPos))] ∧
      (Hangman.setupLine d line).wordsLoaded = d.wordsLoaded + 1 := by
  unfold Hangman.setupLine
  cases hf : findChar line ':' with
  | none => exact Or.inl rfl
  | some delimiterPos =>
    by_cases h1 : delimiterPos + 1 ≤ line.length
    · by_cases h2 : trim (substr line 0 delimiterPos) = []
      · left
        simp [h1, h2]
      · right
        exact ⟨delimiterPos, rfl, h2, by simp [h1, h2], by simp [h1, h2]⟩
    · left
      simp [h1]

theorem Hangman.setup_foldl_wordsLoaded (lines : List (List Char)) (d : HangmanData)
    (h : d.wordsLoaded = d.words.length) :
    (lines.foldl Hangman.setupLine d).wordsLoaded =
      (lines.foldl Hangman.setupLine d).words.length := by
  induction lines generalizing d with
  | nil => simpa using h
  | cons line rest ih =>
    rw [List.foldl_cons]
    apply ih
    rcases Hangman.setupLine_cases d line with h1 | ⟨pos, _, _, h2, h3⟩
    · rw [h1]; exact h
    · rw [h2, h3, h]
      simp

theorem Hangman.mainLoop_draws (fuel n : Nat) (words : List (List Char))
    (lettersUsed guess : List Char) (cin : Console) (count : Int) (drawn : List (List Char))
    (r : HangmanRun)
    (h : Hangman.mainLoop fuel n words lettersUsed guess cin count drawn = some r) :
    r.drawn ++ r.words.reverse = drawn ++ words.reverse ∧
    (r.gameOver = false → r.words = [] ∧ r.numWordsCorrect = count + words.length) := by
  induction n generalizing words lettersUsed guess cin count drawn with
  | zero => simp [Hangman.mainLoop] at h
  | succ n ih =>
    rw [Hangman.mainLoop] at h
    cases hl : words.getLast? with
    | none =>
      rw [hl] at h
      simp only [Option.some.injEq] at h
      subst h
      have : words = [] := List.getLast?_eq_none_iff.mp hl
      simp [this]
    | some actualWord =>
      rw [hl] at h
      simp only at h
      have hw : words.dropLast ++ [actualWord] = words :=
        List.dropLast_append_getLast? actualWord hl
      have hrev : words.reverse = actualWord :: words.dropLast.reverse := by
        conv_lhs => rw [← hw]
        simp
      have hlen : (words.length : Int) = words.dropLast.length + 1 := by
        conv_lhs => rw [← hw]
        simp
      cases hg : gameLoop fuel actualWord (dashes actualWord) lettersUsed guess cin with
      | none => rw [hg] at h; simp at h
      | some p =>
        obtain ⟨ret, s⟩ := p
        rw [hg] at h
        simp only at h
        by_cases hret : ret = 0
        · rw [if_pos hret] at h
          obtain ⟨h1, h2⟩ := ih _ _ _ _ _ _ h
          refine ⟨?_, fun hgo => ?_⟩
          · rw [h1, hrev]
            simp
          · obtain ⟨h3, h4⟩ := h2 hgo
            exact ⟨h3, by rw [h4, hlen]; ring⟩
        · rw [if_neg hret] at h
          simp only [Option.some.injEq] at h
          subst h
          refine ⟨?_, fun hgo => ?_⟩
          · rw [hrev]
            simp
          · simp at hgo

theorem Hangman.mainLoop_all_won (fuel n : Nat) (words : List (List Char))
    (lettersUsed guess : List Char) (cin : Console) (count : Int) (drawn : List (List Char))
    (hn : words.length < n)
    (hwon : allSessionsWon fuel words.reverse lettersUsed guess cin = true) :
    ∃ r, Hangman.mainLoop fuel n words lettersUsed guess cin count drawn = some r ∧
      r.gameOver = false := by
  induction n generalizing words lettersUsed guess cin count drawn with
  | zero => omega
  | succ n ih =>
    rw [Hangman.mainLoop]
    cases hl : words.getLast? with
    | none => exact ⟨_, rfl, rfl⟩
    | some actualWord =>
      simp only
      have hw : words.dropLast ++ [actualWord] = words :=
        List.dropLast_append_getLast? actualWord hl
      have hrev : words.reverse = actualWord :: words.dropLast.reverse := by
        conv_lhs => rw [← hw]
        simp
      have hlen : words.length = words.dropLast.length + 1 := by
        conv_lhs => rw [← hw]
        simp
      rw [hrev, allSessionsWon] at hwon
      cases hg : gameLoop fuel actualWord (dashes actualWord) lettersUsed guess cin with
      | none => rw [hg] at hwon; simp at hwon
      | some p =>
        obtain ⟨ret, s⟩ := p
        rw [hg] at hwon
        simp only at hwon ⊢
        by_cases hret : ret = 0
        · rw [if_pos hret] at hwon ⊢
          exact ih _ _ _ _ _ _ (by omega) hwon
        · rw [if_neg hret] at hwon
          simp at hwon

/-- C5: for every file, and every order `random_shuffle` leaves the loaded
words in, the loop of `main` hands the words out from the back of the vector
without repeating or losing one: the words drawn followed by the rest of the
stack are always the shuffled list read backwards.  When every session is won
the loop ends, after one pass for each word and the final test; the words
drawn are then, as a multiset, exactly the loaded list, duplicates included,
the vector is empty and the count of wins is `wordsLoaded`. -/
theorem Hangman.draws_each_word_once (lines : List (List Char)) (shuffled : List (List Char))
    (hperm : shuffled.Perm (Hangman.setup lines).words) (fuel : Nat) (cin : Console) :
    (∀ n r, Hangman.mainLoop fuel n shuffled [] [] cin 0 [] = some r →
      r.drawn ++ r.words.reverse = shuffled.reverse ∧
      (r.gameOver = false →
        r.drawn = shuffled.reverse ∧
        r.drawn.Perm (Hangman.setup lines).words ∧
        r.words = [] ∧
        r.numWordsCorrect = (Hangman.setup lines).wordsLoaded)) ∧
    (allSessionsWon fuel shuffled.reverse [] [] cin = true →
      ∀ n, shuffled.length < n →
        Hangman.mainLoop fuel n shuffled [] [] cin 0 [] =
          some { drawn := shuffled.reverse, words := [],
                 numWordsCorrect := (Hangman.setup lines).wordsLoaded, gameOver := false }) := by
  have hmain : ∀ n r, Hangman.mainLoop fuel n shuffled [] [] cin 0 [] = some r →
      r.drawn ++ r.words.reverse = shuffled.reverse ∧
      (r.gameOver = false →
        r.drawn = shuffled.reverse ∧
        r.drawn.Perm (Hangman.setup lines).words ∧
        r.words = [] ∧
        r.numWordsCorrect = (Hangman.setup lines).wordsLoaded) := by
    intro n r hrun
    obtain ⟨h1, h2⟩ := Hangman.mainLoop_draws fuel n shuffled [] [] cin 0 [] r hrun
    simp only [List.nil_append] at h1
    refine ⟨h1, fun hgo => ?_⟩
    obtain ⟨h3, h4⟩ := h2 hgo
    have hd : r.drawn = shuffled.reverse := by simpa [h3] using h1
    have hp : r.drawn.Perm (Hangman.setup lines).words :=
      hd ▸ (List.reverse_perm shuffled).trans hperm
    refine ⟨hd, hp, h3, ?_⟩
    rw [h4, Hangman.setup, Hangman.setup_foldl_wordsLoaded lines _ rfl, hperm.length_eq]
    simp [Hangman.setup]
  refine ⟨hmain, fun hwon n hn => ?_⟩
  obtain ⟨r, hr, hgo⟩ := Hangman.mainLoop_all_won fuel n shuffled [] [] cin 0 [] hn hwon
  obtain ⟨_, h2⟩ := hmain n r hr
  obtain ⟨h3, _, h5, h6⟩ := h2 hgo
  rw [hr]
  cases r
  simp only at h3 h5 h6 hgo
  simp [h3, h5, h6, hgo]

theorem Hangman.draws_each_word_once_witness :
    Hangman.mainLoop 5 3 [['a'], ['c', 'a', 't']] [] []
        (typed [['c'], ['a'], ['t'], ['a']]) 0 [] =
      some { drawn := [['a'], ['c', 'a', 't']].reverse, words := [],
             numWordsCorrect :=
               (Hangman.setup [['C', 'a', 't', ' ', ':', ' ', 'p', 'e', 't'], ['a', ':']]).wordsLoaded,
             gameOver := false } :=
  (Hangman.draws_each_word_once
      [['C', 'a', 't', ' ', ':', ' ', 'p', 'e', 't'], ['a', ':']]
      [['a'], ['c', 'a', 't']] (by decide) 5
      (typed [['c'], ['a'], ['t'], ['a']])).2 (by decide) 3 (by decide)

/-! ### Lemmas on `tolower` and the loaders -/

theorem ofNat_add_32_toNat (n : Nat) (h1 : 65 ≤ n) (h2 : n ≤ 90) :
    (Char.ofNat (n + 32)).toNat = n + 32 := by
  interval_cases n <;> rfl

theorem tolower_toNat (c : Char) :
    (tolower c).toNat = if 65 ≤ c.toNat ∧ c.toNat ≤ 90 then c.toNat + 32 else c.toNat := by
  have hA : 'A'.toNat = 65 := rfl
  have hZ : 'Z'.toNat = 90 := rfl
  unfold tolower
  rw [hA, hZ]
  by_cases h : 65 ≤ c.toNat ∧ c.toNat ≤ 90
  · rw [if_pos h, if_pos h]
    exact ofNat_add_32_toNat _ h.1 h.2
  · rw [if_neg h, if_neg h]

theorem tolower_not_upper (c : Char) :
    ¬ ('A'.toNat ≤ (tolower c).toNat ∧ (tolower c).toNat ≤ 'Z'.toNat) := by
  have hA : 'A'.toNat = 65 := rfl
  have hZ : 'Z'.toNat = 90 := rfl
  rw [hA, hZ, tolower_toNat]
  split <;> omega

theorem tolower_of_not_upper (c : Char)
    (h : ¬ ('A'.toNat ≤ c.toNat ∧ c.toNat ≤ 'Z'.toNat)) : tolower c = c := by
  unfold tolower
  rw [if_neg h]

theorem tolower_idem (c : Char) : tolower (tolower c) = tolower c :=
  tolower_of_not_upper _ (tolower_not_upper c)

theorem tolower_ne_space (c : Char) (h : c ≠ ' ') : tolower c ≠ ' ' := by
  intro he
  have h1 := tolower_toNat c
  rw [he] at h1
  have hs : ' '.toNat = 32 := rfl
  rw [hs] at h1
  by_cases hu : 65 ≤ c.toNat ∧ c.toNat ≤ 90
  · rw [if_pos hu] at h1
    omega
  · rw [if_neg hu] at h1
    apply h
    rw [← Char.ofNat_toNat c, ← h1]

theorem toLowerStr_idem (w : List Char) : toLowerStr (toLowerStr w) = toLowerStr w := by
  simp [toLowerStr, tolower_idem]

theorem mem_mapInsert (m : List (List Char × List Char)) (key value : List Char)
    (kv : List Char × List Char) (h : kv ∈ mapInsert m key value) :
    kv ∈ m ∨ kv.1 = key := by
  unfold mapInsert at h
  split at h
  · exact Or.inl h
  · rcases List.mem_append.mp h with h | h
    · exact Or.inl h
    · right
      simp only [List.mem_singleton] at h
      rw [h]

theorem Hangman.setupLine_map (d : HangmanData) (line : List Char)
    (h : ∀ kv ∈ d.wordsWithClues, kv.1 ∈ d.words) :
    ∀ kv ∈ (Hangman.setupLine d line).wordsWithClues, kv.1 ∈ (Hangman.setupLine d line).words := by
  unfold Hangman.setupLine
  cases hf : findChar line ':' with
  | none => exact h
  | some delimiterPos =>
    by_cases h1 : delimiterPos + 1 ≤ line.length
    · by_cases h2 : trim (substr line 0 delimiterPos) = []
      · simpa [h1, h2] using h
      · simp only [h1, h2, if_true, ne_eq, not_false_eq_true]
        intro kv hkv
        rcases mem_mapInsert _ _ _ kv hkv with hm | hm
        · exact List.mem_append_left _ (h kv hm)
        · rw [hm]
          simp
    · simpa [h1] using h

theorem Hangman.setup_foldl_words (lines : List (List Char)) (d : HangmanData) :
    ∀ w ∈ (lines.foldl Hangman.setupLine d).words,
      w ∈ d.words ∨
      ∃ line ∈ lines, ∃ delimiterPos, findChar line ':' = some delimiterPos ∧
        trim (substr line 0 delimiterPos) ≠ [] ∧
        w = toLowerStr (trim (substr line 0 delimiterPos)) := by
  induction lines generalizing d with
  | nil => intro w hw; exact Or.inl hw
  | cons line rest ih =>
    intro w hw
    rw [List.foldl_cons] at hw
    rcases ih _ w hw with h | ⟨l, hl, pos, h1, h2, h3⟩
    · rcases Hangman.setupLine_cases d line with hc | ⟨pos, hf, hne, hwords, _⟩
      · rw [hc] at h
        exact Or.inl h
      · rw [hwords] at h
        rcases List.mem_append.mp h with h | h
        · exact Or.inl h
        · right
          simp only [List.mem_singleton] at h
          exact ⟨line, List.mem_cons_self _ _, pos, hf, hne, h⟩
    · exact Or.inr ⟨l, List.mem_cons_of_mem _ hl, pos, h1, h2, h3⟩

theorem Hangman.setup_foldl_map (lines : List (List Char)) (d : HangmanData)
    (h : ∀ kv ∈ d.wordsWithClues, kv.1 ∈ d.words) :
    ∀ kv ∈ (lines.foldl Hangman.setupLine d).wordsWithClues,
      kv.1 ∈ (lines.foldl Hangman.setupLine d).words := by
  induction lines generalizing d with
  | nil => exact h
  | cons line rest ih =>
    rw [List.foldl_cons]
    exact ih _ (Hangman.setupLine_map d line h)

theorem WordScramble.setup_foldl_entries (lines : List (List Char)) (data : List WordData) :
    ∀ e ∈ lines.foldl WordScramble.setupLine data,
      e ∈ data ∨
      ∃ line ∈ lines, ∃ delimiterPos, findChar line ':' = some delimiterPos ∧
        e = { word := trim (substr line 0 delimiterPos),
              hint := trim (substrFrom line (delimiterPos + 1)), visited := false } := by
  induction lines generalizing data with
  | nil => intro e he; exact Or.inl he
  | cons line rest ih =>
    intro e he
    rw [List.foldl_cons] at he
    rcases ih _ e he with h | ⟨l, hl, pos, h1, h2⟩
    · unfold WordScramble.setupLine at h
      split at h
      · cases hf : findChar line ':' with
        | none =>
          rw [hf] at h
          exact Or.inl h
        | some pos =>
          rw [hf] at h
          simp only at h
          split at h
          · rcases List.mem_append.mp h with h | h
            · exact Or.inl h
            · right
              simp only [List.mem_singleton] at h
              exact ⟨line, List.mem_cons_self _ _, pos, hf, h⟩
          · exact Or.inl h
      · exact Or.inl h
    · exact Or.inr ⟨l, List.mem_cons_of_mem _ hl, pos, h1, h2⟩

/-- C8, as stated, fails for the loader of WordScramble.cpp: on the two lines
"Ab:c" and ":" it stores the words "Ab", which is not lowercase, and "", which
is empty. -/
theorem WordScramble.setup_keeps_case_and_empty_words :
    (WordScramble.setup [['A', 'b', ':', 'c'], [':']]).map WordData.word = [['A', 'b'], []] ∧
    toLowerStr ['A', 'b'] ≠ ['A', 'b'] ∧
    ¬ (∀ e ∈ WordScramble.setup [['A', 'b', ':', 'c'], [':']],
        e.word ≠ [] ∧ toLowerStr e.word = e.word) := by
  decide

/-- C8 as amended: every word stored by `setup` of Hangman.cpp, in the vector
and as a key of the map, is non-empty and lowercase, being the lowercased
word part of a line whose word part is not empty after stripping spaces, and
a line with an empty word part is skipped; every entry stored by `setup` of
WordScramble.cpp has as its word the stripped word part of a line with a
colon, as it stands. -/
theorem loaders_store_words (lines : List (List Char)) :
    (∀ w ∈ (Hangman.setup lines).words,
      w ≠ [] ∧ toLowerStr w = w ∧
      (∀ c ∈ w, ¬ ('A'.toNat ≤ c.toNat ∧ c.toNat ≤ 'Z'.toNat)) ∧
      ∃ line ∈ lines, ∃ delimiterPos, findChar line ':' = some delimiterPos ∧
        w = toLowerStr (trim (substr line 0 delimiterPos))) ∧
    (∀ kv ∈ (Hangman.setup lines).wordsWithClues, kv.1 ∈ (Hangman.setup lines).words) ∧
    (∀ (d : HangmanData) (line : List Char) (delimiterPos : Nat),
      findChar line ':' = some delimiterPos → trim (substr line 0 delimiterPos) = [] →
        Hangman.setupLine d line = d) ∧
    (∀ e ∈ WordScramble.setup lines,
      ∃ line ∈ lines, ∃ delimiterPos, findChar line ':' = some delimiterPos ∧
        e.word = trim (substr line 0 delimiterPos)) := by
  refine ⟨fun w hw => ?_, ?_, ?_, fun e he => ?_⟩
  · rcases Hangman.setup_foldl_words lines _ w hw with h | ⟨line, hl, pos, hf, hne, hw2⟩
    · simp at h
    · refine ⟨?_, ?_, ?_, line, hl, pos, hf, hw2⟩
      · rw [hw2]
        intro h
        apply hne
        simpa [toLowerStr] using h
      · rw [hw2, toLowerStr_idem]
      · intro c hc
        rw [hw2] at hc
        simp only [toLowerStr, List.mem_map] at hc
        obtain ⟨a, _, rfl⟩ := hc
        exact tolower_not_upper a
  · exact Hangman.setup_foldl_map lines _ (by simp)
  · intro d line pos hf hempty
    unfold Hangman.setupLine
    rw [hf]
    simp [hempty]
  · rcases WordScramble.setup_foldl_entries lines [] e he with h | ⟨line, hl, pos, hf, he2⟩
    · simp at h
    · exact ⟨line, hl, pos, hf, by rw [he2]⟩

/-! ### A space in the target is never revealed -/

theorem find_first_not_of_some (str : List Char) (c : Char) (first : Nat)
    (h : find_first_not_of str c = some first) :
    ∃ x rest, str.drop first = x :: rest ∧ x ≠ c := by
  induction str generalizing first with
  | nil => simp [find_first_not_of] at h
  | cons y ys ih =>
    unfold find_first_not_of at h
    by_cases hy : y ≠ c
    · rw [if_pos hy] at h
      simp only [Option.some.injEq] at h
      subst h
      exact ⟨y, ys, rfl, hy⟩
    · rw [if_neg hy] at h
      cases hr : find_first_not_of ys c with
      | none => rw [hr] at h; simp at h
      | some k =>
        rw [hr] at h
        simp only [Option.map_some', Option.some.injEq] at h
        subst h
        obtain ⟨x, rest, h1, h2⟩ := ih k hr
        exact ⟨x, rest, by simpa using h1, h2⟩

theorem trim_head (str : List Char) :
    trim str = [] ∨ ∃ x rest, trim str = x :: rest ∧ x ≠ ' ' := by
  unfold trim
  cases hf : find_first_not_of str ' ' with
  | none => exact Or.inl rfl
  | some first =>
    cases hl : find_last_not_of str ' ' with
    | none => exact Or.inl rfl
    | some last =>
      right
      obtain ⟨x, rest, h1, h2⟩ := find_first_not_of_some str ' ' first hf
      refine ⟨x, rest.take (last - first), ?_, h2⟩
      simp only [substr, h1, List.take_succ_cons]

theorem evaluated_char_ne_space (raw : List Char) :
    charAt (toLowerStr (trim raw)) 0 ≠ ' ' := by
  rcases trim_head raw with h | ⟨x, rest, h, hx⟩
  · rw [h]
    decide
  · rw [h]
    simpa [toLowerStr, charAt] using tolower_ne_space x hx

theorem updateWords_keeps_other (actualWord hiddenWord : List Char) (c : Char) (n : Int)
    (i : Nat) (h : charAt actualWord i ≠ c) :
    (updateWords actualWord hiddenWord c n).2.1[i]? = hiddenWord[i]? := by
  unfold updateWords
  split
  · simp only [revealLoop]
    rw [revealFold_getElem?, if_neg (fun hh => h hh.2)]
  · split <;> rfl

theorem loopBody_keeps_space (actualWord : List Char) (s : Session) (i : Nat)
    (h : charAt actualWord i = ' ') :
    (loopBody actualWord s).2.hiddenWord[i]? = s.hiddenWord[i]? := by
  unfold loopBody
  simp only
  split
  · rfl
  · exact updateWords_keeps_other _ _ _ _ i
      (by rw [h]; exact fun e => evaluated_char_ne_space _ e.symm)

theorem gameLoopFrom_space_never_won (actualWord : List Char) (i : Nat)
    (hi : actualWord[i]? = some ' ') (fuel : Nat) (s : Session)
    (hs : s.hiddenWord[i]? = some '-') (r : Session) :
    gameLoopFrom actualWord fuel s ≠ some (0, r) := by
  induction fuel generalizing s with
  | zero => simp [gameLoopFrom]
  | succ fuel ih =>
    have hw : s.hiddenWord ≠ actualWord := by
      intro e
      rw [e, hi] at hs
      exact absurd hs (by decide)
    rw [gameLoopFrom, if_neg hw]
    simp only
    cases hl : (loopBody actualWord s).1
    · simp only [Bool.false_eq_true, if_false]
      apply ih
      rw [loopBody_keeps_space actualWord s i (by simp [charAt, hi])]
      exact hs
    · simp

theorem gameLoop_space_never_won (actualWord : List Char) (h : ' ' ∈ actualWord)
    (fuel : Nat) (lettersUsed guess : List Char) (cin : Console) (r : Session) :
    gameLoop fuel actualWord (dashes actualWord) lettersUsed guess cin ≠ some (0, r) := by
  obtain ⟨i, hi, hget⟩ := List.getElem_of_mem h
  have h1 : actualWord[i]? = some ' ' := by rw [List.getElem?_eq_getElem hi, hget]
  apply gameLoopFrom_space_never_won actualWord i h1
  simp [dashes, List.getElem?_replicate, hi]

/-- C10 fails on a word with a space inside: the line "a b : x" makes `setup`
store the word "a b", and on that target `gameLoop`, started on the mask
"---", returns 0 for no input at all, since no trimmed guess begins with a
space and the mask keeps its dash there. -/
theorem gameLoop_a_b_never_won :
    (Hangman.setup [['a', ' ', 'b', ' ', ':', ' ', 'x']]).words = [['a', ' ', 'b']] ∧
    ∀ (fuel : Nat) (lettersUsed guess : List Char) (cin : Console) (r : Session),
      gameLoop fuel ['a', ' ', 'b'] (dashes ['a', ' ', 'b']) lettersUsed guess cin
        ≠ some (0, r) :=
  ⟨by decide, fun fuel lettersUsed guess cin r =>
    gameLoop_space_never_won _ (by decide) fuel lettersUsed guess cin r⟩

/-! ### The guess step of WordScramble.cpp -/

/-- C6, as stated, fails when the target word is "hint": the input "hint" is
compared with the target before it is compared with "hint", so it is Solved
and `attemptGuess` returns, and no hint is disclosed. -/
theorem attemptGuess_hint_on_target_hint :
    guessOutcome hintStr hintStr ['c', 'l', 'u', 'e'] = GuessOutcome.Solved ∧
    guessOutcome hintStr hintStr ['c', 'l', 'u', 'e']
      ≠ GuessOutcome.HintRequested ['c', 'l', 'u', 'e'] ∧
    attemptGuess hintStr ['c', 'l', 'u', 'e'] 1 (typed [[' ', 'h', 'i', 'n', 't']]) [] [] =
      some (hintStr, typed [], [GuessOutcome.Solved]) := by
  decide

/-- C6 as amended: `attemptGuess` classifies the trimmed input in this order.
"quit" is Quit: the function returns "quit", which makes `main` return.
Otherwise an input equal to the target is Solved and the function returns it.
Otherwise "hint" is HintRequested: only the hint is printed and the loop reads
the next line.  Any other input is Retry and the loop reads the next line.
For the target "apple" the input "quit" is Quit, and the pass of the game loop
that presented "apple" ends the run with the counters as they were. -/
theorem attemptGuess_classifies (actualWord hint : List Char) (fuel : Nat) (cin : Console)
    (guess : List Char) (log : List GuessOutcome) :
    (trim (getline cin guess).2 = quitStr →
      attemptGuess actualWord hint (fuel + 1) cin guess log =
        some (quitStr, (getline cin guess).1, log ++ [GuessOutcome.Quit])) ∧
    (trim (getline cin guess).2 ≠ quitStr → trim (getline cin guess).2 = actualWord →
      attemptGuess actualWord hint (fuel + 1) cin guess log =
        some (actualWord, (getline cin guess).1, log ++ [GuessOutcome.Solved])) ∧
    (trim (getline cin guess).2 ≠ quitStr → trim (getline cin guess).2 ≠ actualWord →
      trim (getline cin guess).2 = hintStr →
      attemptGuess actualWord hint (fuel + 1) cin guess log =
        attemptGuess actualWord hint fuel (getline cin guess).1 hintStr
          (log ++ [GuessOutcome.HintRequested hint])) ∧
    (trim (getline cin guess).2 ≠ quitStr → trim (getline cin guess).2 ≠ actualWord →
      trim (getline cin guess).2 ≠ hintStr →
      attemptGuess actualWord hint (fuel + 1) cin guess log =
        attemptGuess actualWord hint fuel (getline cin guess).1 (trim (getline cin guess).2)
          (log ++ [GuessOutcome.Retry])) ∧
    attemptGuess ['a', 'p', 'p', 'l', 'e'] hint 1 (typed [quitStr]) guess [] =
      some (quitStr, typed [], [GuessOutcome.Quit]) ∧
    WordScramble.mainPass (fun _ => 0) 1
        { data := [{ word := ['a', 'p', 'p', 'l', 'e'], hint := ['f'], visited := false }],
          wordsToGuess := 10, wordCounter := 1, calls := 0, guess := [],
          cin := typed [quitStr], shown := [] } =
      some (true,
        { data := [{ word := ['a', 'p', 'p', 'l', 'e'], hint := ['f'], visited := true }],
          wordsToGuess := 10, wordCounter := 1, calls := 11, guess := quitStr,
          cin := typed [], shown := [0] }) := by
  refine ⟨fun h1 => ?_, fun h1 h2 => ?_, fun h1 h2 h3 => ?_, fun h1 h2 h3 => ?_, ?_,
    by decide⟩
  · rw [attemptGuess]
    simp [guessOutcome, h1]
  · have h3 : actualWord ≠ quitStr := h2 ▸ h1
    rw [attemptGuess]
    simp [guessOutcome, h2, h3]
  · rw [attemptGuess]
    simp only [guessOutcome, h1, h2, h3, if_false, if_true]
    rw [← h3]
    simp [h1, h2]
  · rw [attemptGuess]
    simp only [guessOutcome, h1, h2, h3, if_false]
    simp [h1, h2]
  · have hg : getline (typed [quitStr]) guess = (typed [], quitStr) := by
      have := getline_line quitStr [] guess (by decide)
      simpa [typed] using this
    rw [attemptGuess]
    simp [guessOutcome, hg, show trim quitStr = quitStr by decide]

theorem attemptGuess_classifies_witness :
    attemptGuess ['a', 'p', 'p', 'l', 'e'] ['f'] 3
        (typed [hintStr, ['p', 'l', 'e', 'a'], ['a', 'p', 'p', 'l', 'e']]) [] [] =
      attemptGuess ['a', 'p', 'p', 'l', 'e'] ['f'] 2
        (typed [['p', 'l', 'e', 'a'], ['a', 'p', 'p', 'l', 'e']]) hintStr
        ([] ++ [GuessOutcome.HintRequested ['f']]) :=
  (attemptGuess_classifies ['a', 'p', 'p', 'l', 'e'] ['f'] 2
    (typed [hintStr, ['p', 'l', 'e', 'a'], ['a', 'p', 'p', 'l', 'e']]) [] []).2.2.1
    (by decide) (by decide) (by decide)

/-! ### The game loop of WordScramble.cpp -/

theorem WordScramble.mainPass_cases (rand : Nat → Nat) (fuel : Nat) (s s1 : ScrambleState)
    (q : Bool) (h : WordScramble.mainPass rand fuel s = some (q, s1)) :
    ∃ e, s.data[rand s.calls % s.data.length]? = some e ∧
      ((e.visited = true ∧ q = false ∧ s1.data = s.data ∧ s1.shown = s.shown ∧
          s1.wordsToGuess = s.wordsToGuess) ∨
       (e.visited = false ∧
          s1.data = s.data.set (rand s.calls % s.data.length) { e with visited := true } ∧
          s1.shown = s.shown ++ [rand s.calls % s.data.length] ∧
          ((q = true ∧ s1.wordsToGuess = s.wordsToGuess) ∨
           (q = false ∧ s1.wordsToGuess = s.wordsToGuess - 1)))) := by
  unfold WordScramble.mainPass at h
  simp only at h
  cases he : s.data[rand s.calls % s.data.length]? with
  | none => rw [he] at h; simp at h
  | some e =>
    rw [he] at h
    simp only at h
    refine ⟨e, rfl, ?_⟩
    cases hv : e.visited
    · right
      rw [hv] at h
      simp only [Bool.not_false, if_true] at h
      cases ha : attemptGuess e.word e.hint fuel s.cin s.guess [] with
      | none => rw [ha] at h; simp at h
      | some p =>
        obtain ⟨g, cin1, lg⟩ := p
        rw [ha] at h
        simp only at h
        by_cases hq : g = quitStr
        · rw [if_pos hq] at h
          simp only [Option.some.injEq, Prod.mk.injEq] at h
          obtain ⟨h1, h2⟩ := h
          subst h1 h2
          exact ⟨rfl, rfl, rfl, Or.inl ⟨rfl, rfl⟩⟩
        · rw [if_neg hq] at h
          simp only [Option.some.injEq, Prod.mk.injEq] at h
          obtain ⟨h1, h2⟩ := h
          subst h1 h2
          exact ⟨rfl, rfl, rfl, Or.inr ⟨rfl, rfl⟩⟩
    · left
      rw [hv] at h
      simp only [Bool.not_true, Bool.false_eq_true, if_false, Option.some.injEq,
        Prod.mk.injEq] at h
      obtain ⟨h1, h2⟩ := h
      subst h1 h2
      exact ⟨rfl, rfl, rfl, rfl, rfl⟩

theorem WordScramble.mainPass_inv (rand : Nat → Nat) (fuel : Nat) (target : Int) (len : Nat)
    (s s1 : ScrambleState) (q : Bool) (hinv : ScrambleInv target len s)
    (h : WordScramble.mainPass rand fuel s = some (q, s1)) (hq : q = false) :
    ScrambleInv target len s1 := by
  obtain ⟨hl, hnd, hiff, hsum⟩ := hinv
  obtain ⟨e, he, hc⟩ := WordScramble.mainPass_cases rand fuel s s1 q h
  rcases hc with ⟨_, _, hd, hs, hw⟩ | ⟨hv, hd, hs, hw⟩
  · exact ⟨by rw [hd, hl], by rw [hs]; exact hnd, by rw [hs, hd]; exact hiff,
      by rw [hs, hw]; exact hsum⟩
  · have hw2 : s1.wordsToGuess = s.wordsToGuess - 1 := by
      rcases hw with ⟨hq2, _⟩ | ⟨_, hw⟩
      · rw [hq] at hq2; cases hq2
      · exact hw
    have hnot : rand s.calls % s.data.length ∉ s.shown := by
      intro hmem
      obtain ⟨e2, he2, hv2⟩ := (hiff _).mp hmem
      rw [he] at he2
      cases he2
      rw [hv] at hv2
      cases hv2
    have hlt : rand s.calls % s.data.length < s.data.length := by
      rcases Nat.lt_or_ge (rand s.calls % s.data.length) s.data.length with h | h
      · exact h
      · rw [List.getElem?_eq_none h] at he
        cases he
    refine ⟨by rw [hd, List.length_set, hl], ?_, ?_, ?_⟩
    · rw [hs]
      exact List.Nodup.append hnd (List.nodup_singleton _)
        (by
          intro a ha hb
          simp only [List.mem_singleton] at hb
          subst hb
          exact hnot ha)
    · intro i
      rw [hs, hd, List.mem_append, List.mem_singleton]
      by_cases hi : rand s.calls % s.data.length = i
      · subst hi
        constructor
        · intro _
          exact ⟨_, List.getElem?_set_self hlt, rfl⟩
        · intro _
          exact Or.inr rfl
      · rw [List.getElem?_set_ne hi, ← hiff i]
        constructor
        · rintro (h | h)
          · exact h
          · exact absurd h.symm hi
        · intro h
          exact Or.inl h
    · rw [hs, hw2, List.length_append, List.length_singleton]
      push_cast
      omega

theorem WordScramble.afterPasses_inv (rand : Nat → Nat) (fuel : Nat) (target : Int) (len : Nat)
    (n : Nat) (s0 s : ScrambleState) (hinv : ScrambleInv target len s0)
    (h : WordScramble.afterPasses rand fuel n s0 = some s) :
    ScrambleInv target len s := by
  induction n generalizing s0 with
  | zero =>
    simp only [WordScramble.afterPasses, Option.some.injEq] at h
    exact h ▸ hinv
  | succ n ih =>
    rw [WordScramble.afterPasses] at h
    split at h
    · cases hp : WordScramble.mainPass rand fuel s0 with
      | none => rw [hp] at h; simp at h
      | some p =>
        obtain ⟨q, s1⟩ := p
        rw [hp] at h
        cases q
        · exact ih s1 (WordScramble.mainPass_inv rand fuel target len s0 s1 false hinv hp rfl) h
        · simp at h
    · simp at h

theorem ScrambleInv_unvisited (target : Int) (len : Nat) (s : ScrambleState)
    (hinv : ScrambleInv target len s) (htarget : target ≤ len) (hpos : 0 < s.wordsToGuess) :
    ∃ i e, i < s.data.length ∧ s.data[i]? = some e ∧ e.visited = false := by
  obtain ⟨hl, hnd, hiff, hsum⟩ := hinv
  by_contra hno
  have hall : ∀ i, i < len → i ∈ s.shown := by
    intro i hi
    have hi2 : i < s.data.length := by omega
    rw [hiff]
    refine ⟨s.data[i], List.getElem?_eq_getElem hi2, ?_⟩
    cases hv : s.data[i].visited
    · exact absurd ⟨i, s.data[i], hi2, List.getElem?_eq_getElem hi2, hv⟩ hno
    · rfl
  have hsub : List.range len ⊆ s.shown := fun i hi => hall i (List.mem_range.mp hi)
  have hle : (List.range len).length ≤ s.shown.length :=
    (List.subperm_of_subset (List.nodup_range len) hsub).length_le
  rw [List.length_range] at hle
  omega

/-- C7: in the game loop of WordScramble.cpp, entered with at least 20 entries,
all unvisited, and a target count between 10 and 20, at every loop test that
is reached, whatever `rand()` returns: the indices presented so far are
distinct and are exactly the visited entries; if `wordsToGuess > 0`, so that
the loop samples, some entry is still unvisited; and the pass that follows
presents the sampled entry only if it is unvisited, marking it visited in the
same pass, and otherwise presents nothing and marks nothing. -/
theorem WordScramble.no_entry_presented_twice (rand : Nat → Nat) (fuel n : Nat)
    (data : List WordData) (target : Int) (guess : List Char) (cin : Console)
    (s : ScrambleState)
    (hlen : 20 ≤ data.length) (hunv : ∀ e ∈ data, e.visited = false)
    (h10 : 10 ≤ target) (h20 : target ≤ 20)
    (hreach : WordScramble.afterPasses rand fuel n
      (WordScramble.startState data target guess cin) = some s) :
    s.shown.Nodup ∧
    (∀ i, i ∈ s.shown ↔ ∃ e, s.data[i]? = some e ∧ e.visited = true) ∧
    (0 < s.wordsToGuess →
      ∃ i e, i < s.data.length ∧ s.data[i]? = some e ∧ e.visited = false) ∧
    (∀ q s1, WordScramble.mainPass rand fuel s = some (q, s1) →
      ∃ e, s.data[rand s.calls % s.data.length]? = some e ∧
        ((e.visited = true ∧ q = false ∧ s1.data = s.data ∧ s1.shown = s.shown ∧
            s1.wordsToGuess = s.wordsToGuess) ∨
         (e.visited = false ∧
            s1.data = s.data.set (rand s.calls % s.data.length) { e with visited := true } ∧
            s1.shown = s.shown ++ [rand s.calls % s.data.length] ∧
            ((q = true ∧ s1.wordsToGuess = s.wordsToGuess) ∨
             (q = false ∧ s1.wordsToGuess = s.wordsToGuess - 1))))) := by
  have h0 : ScrambleInv target data.length (WordScramble.startState data target guess cin) := by
    refine ⟨rfl, List.nodup_nil, fun i => ?_, by simp [WordScramble.startState]⟩
    simp only [WordScramble.startState, List.not_mem_nil, false_iff, not_exists, not_and]
    intro e he hv
    rw [hunv e (List.getElem?_mem he)] at hv
    cases hv
  have hinv := WordScramble.afterPasses_inv rand fuel target data.length n _ s h0 hreach
  have htl : target ≤ (data.length : Int) := by omega
  exact ⟨hinv.2.1, hinv.2.2.1,
    fun hpos => ScrambleInv_unvisited target data.length s hinv htl hpos,
    fun q s1 h => WordScramble.mainPass_cases rand fuel s s1 q h⟩

theorem WordScramble.no_entry_presented_twice_witness :
    ({ data := (List.replicate 20 { word := ['a'], hint := [], visited := false }).set 3
          { word := ['a'], hint := [], visited := true },
       wordsToGuess := 9, wordCounter := 2, calls := 3, guess := ['a'], cin := typed [],
       shown := [3] } : ScrambleState).shown.Nodup :=
  (WordScramble.no_entry_presented_twice (fun k => k + 3) 1 1
    (List.replicate 20 { word := ['a'], hint := [], visited := false }) 10 [] (typed [['a']])
    { data := (List.replicate 20 { word := ['a'], hint := [], visited := false }).set 3
        { word := ['a'], hint := [], visited := true },
      wordsToGuess := 9, wordCounter := 2, calls := 3, guess := ['a'], cin := typed [],
      shown := [3] }
    (by decide) (by decide) (by decide) (by decide) (by decide)).1

/-! ### The prompt for the number of words -/

theorem isdigit_not_special (c : Char) (h : isdigit c = true) :
    isspace c = false ∧ c ≠ '-' ∧ c ≠ '+' := by
  have h0 : '0'.toNat = 48 := rfl
  have h9 : '9'.toNat = 57 := rfl
  simp only [isdigit, h0, h9, decide_eq_true_eq] at h
  refine ⟨?_, ?_, ?_⟩
  · simp only [isspace, decide_eq_false_iff_not, not_or]
    refine ⟨?_, by omega⟩
    rintro rfl
    have : ' '.toNat = 32 := rfl
    omega
  · rintro rfl
    have : '-'.toNat = 45 := rfl
    omega
  · rintro rfl
    have : '+'.toNat = 43 := rfl
    omega

theorem stripSign_false (t u : List Char) (h : stripSign t = (false, u)) :
    t = u ∨ t = '+' :: u := by
  cases t with
  | nil =>
    simp only [stripSign, Prod.mk.injEq, true_and] at h
    exact Or.inl h
  | cons c t =>
    simp only [stripSign] at h
    by_cases h1 : c = '-'
    · rw [if_pos h1] at h
      simp at h
    · rw [if_neg h1] at h
      by_cases h2 : c = '+'
      · rw [if_pos h2] at h
        simp only [Prod.mk.injEq, true_and] at h
        exact Or.inr (by rw [h2, h])
      · rw [if_neg h2] at h
        simp only [Prod.mk.injEq, true_and] at h
        exact Or.inl h

theorem stoi_in_range_iff (line : List Char) :
    (∃ v, stoi line = some v ∧ 10 ≤ v ∧ v ≤ 20) ↔ startsWithNumberInRange line := by
  constructor
  · rintro ⟨v, hv, h10, h20⟩
    unfold stoi at hv
    simp only at hv
    by_cases hne : List.takeWhile isdigit (stripSign (List.dropWhile isspace line)).2 = []
    · rw [if_pos hne] at hv
      simp at hv
    · rw [if_neg hne] at hv
      cases hs : (stripSign (List.dropWhile isspace line)).1
      · simp only [hs, Bool.false_eq_true, if_false] at hv
        split at hv
        · simp at hv
        · simp only [Option.some.injEq] at hv
          have hsign := stripSign_false (List.dropWhile isspace line)
            (stripSign (List.dropWhile isspace line)).2 (by rw [← hs])
          refine ⟨line.takeWhile isspace,
            if List.dropWhile isspace line = (stripSign (List.dropWhile isspace line)).2
              then [] else ['+'],
            (stripSign (List.dropWhile isspace line)).2.takeWhile isdigit,
            (stripSign (List.dropWhile isspace line)).2.dropWhile isdigit,
            ?_, ?_, ?_, hne, ?_, ?_, ?_, ?_⟩
          · rw [List.takeWhile_append_dropWhile]
            split
            · next he =>
              rw [List.nil_append, ← he, List.takeWhile_append_dropWhile]
            · next he =>
              rcases hsign with h | h
              · exact absurd h he
              · rw [List.singleton_append, ← h, List.takeWhile_append_dropWhile]
          · intro c hc
            exact List.mem_takeWhile_imp hc
          · split
            · exact Or.inl rfl
            · exact Or.inr rfl
          · intro c hc
            exact List.mem_takeWhile_imp hc
          · intro c hc
            have := List.head?_dropWhile_not isdigit
              (stripSign (List.dropWhile isspace line)).2
            rw [hc] at this
            exact this
          · omega
          · omega
      · simp only [hs, if_true] at hv
        split at hv
        · simp at hv
        · simp only [Option.some.injEq] at hv
          omega
  · rintro ⟨ws, sign, digits, rest, hline, hws, hsign, hne, hdig, hrest, h10, h20⟩
    obtain ⟨d, ds, rfl⟩ := List.exists_cons_of_ne_nil hne
    have hd := isdigit_not_special d (hdig d (List.mem_cons_self _ _))
    have hdrop : List.dropWhile isspace line = sign ++ (d :: ds ++ rest) := by
      rw [hline, List.dropWhile_append_of_pos hws]
      rcases hsign with rfl | rfl
      · rw [List.nil_append, List.cons_append, List.dropWhile_cons_of_neg (by simp [hd.1])]
      · rw [List.singleton_append, List.dropWhile_cons_of_neg (by decide)]
    have hstrip : stripSign (List.dropWhile isspace line) = (false, d :: ds ++ rest) := by
      rw [hdrop]
      rcases hsign with rfl | rfl
      · simp [stripSign, hd.2.1, hd.2.2]
      · simp [stripSign]
    have htake : List.takeWhile isdigit (d :: ds ++ rest) = d :: ds := by
      rw [List.takeWhile_append_of_pos hdig]
      cases rest with
      | nil => simp
      | cons r rs =>
        rw [List.takeWhile_cons_of_neg (by simp [hrest r rfl])]
        simp
    refine ⟨(digitsValue (d :: ds) : Int), ?_, by omega, by omega⟩
    unfold stoi
    simp only [hstrip, htake]
    rw [if_neg (by simp), if_neg (by omega)]
    simp

theorem promptPass_line (s : PromptState) (line rest : List Char) (hnl : '\n' ∉ line)
    (hcin : s.cin = { buf := line ++ '\n' :: rest, eofbit := false, failbit := false }) :
    promptPass s =
      match stoi line with
      | some v =>
        ({ wordsToGuess := v, guess := line,
           cin := { buf := rest, eofbit := false, failbit := false } },
          decide (v < 10 ∨ v > 20))
      | none =>
        ({ wordsToGuess := s.wordsToGuess, guess := line,
           cin := { buf := rest, eofbit := false, failbit := false } }, true) := by
  simp only [promptPass, hcin, getline_line line rest s.guess hnl]

/-- C9 is not met by the code: the lines "12abc" and "20.9" are not numbers in
the range from 10 to 20, and the prompt loop accepts each of them without a
message, with `wordsToGuess` 12 and 20, because it never looks at how much of
the line `stoi` converted. -/
theorem prompt_accepts_12abc :
    isNumberInRange ['1', '2', 'a', 'b', 'c'] = false ∧
    (promptPass (promptStart (typed [['1', '2', 'a', 'b', 'c']]))).2 = false ∧
    promptLoop 2 (promptStart (typed [['1', '2', 'a', 'b', 'c']])) =
      some { wordsToGuess := 12, guess := ['1', '2', 'a', 'b', 'c'], cin := typed [] } ∧
    isNumberInRange ['2', '0', '.', '9'] = false ∧
    (promptPass (promptStart (typed [['2', '0', '.', '9']]))).2 = false ∧
    promptLoop 2 (promptStart (typed [['2', '0', '.', '9']])) =
      some { wordsToGuess := 20, guess := ['2', '0', '.', '9'], cin := typed [] } := by
  decide

/-- What the prompt loop does with a line while it is asking: the line is
accepted, the loop ending with no message, exactly when `stoi` finds at its
start (after white space and an optional plus sign) a run of digits with a
value from 10 to 20; every other line is answered with the message and the
prompt is repeated, `wordsToGuess` staying out of range.  "5", "25" and "abc"
are rejected, "10" and "20" are accepted. -/
theorem prompt_accepts_iff (s : PromptState) (line rest : List Char) (hnl : '\n' ∉ line)
    (hloop : s.wordsToGuess < 10 ∨ s.wordsToGuess > 20)
    (hcin : s.cin = { buf := line ++ '\n' :: rest, eofbit := false, failbit := false }) :
    (startsWithNumberInRange line →
      (promptPass s).2 = false ∧
      10 ≤ (promptPass s).1.wordsToGuess ∧ (promptPass s).1.wordsToGuess ≤ 20 ∧
      ∀ fuel, promptLoop (fuel + 2) s = some (promptPass s).1) ∧
    (¬ startsWithNumberInRange line →
      (promptPass s).2 = true ∧
      ((promptPass s).1.wordsToGuess < 10 ∨ (promptPass s).1.wordsToGuess > 20) ∧
      ∀ fuel, promptLoop (fuel + 1) s = promptLoop fuel (promptPass s).1) ∧
    promptLoop 4 (promptStart (typed [['5'], ['2', '5'], ['a', 'b', 'c']])) = none ∧
    promptLoop 5 (promptStart (typed [['5'], ['2', '5'], ['a', 'b', 'c'], ['1', '0']])) =
      some { wordsToGuess := 10, guess := ['1', '0'], cin := typed [] } ∧
    promptLoop 2 (promptStart (typed [['2', '0']])) =
      some { wordsToGuess := 20, guess := ['2', '0'], cin := typed [] } := by
  have hpass := promptPass_line s line rest hnl hcin
  have hstep : ∀ fuel, promptLoop (fuel + 1) s = promptLoop fuel (promptPass s).1 := by
    intro fuel
    rw [promptLoop, if_pos hloop]
  refine ⟨fun hin => ?_, fun hout => ?_, by decide, by decide, by decide⟩
  · obtain ⟨v, hv, h10, h20⟩ := (stoi_in_range_iff line).mpr hin
    rw [hv] at hpass
    have hw : (promptPass s).1.wordsToGuess = v := by rw [hpass]
    refine ⟨?_, by omega, by omega, fun fuel => ?_⟩
    · rw [hpass]
      simp only [decide_eq_false_iff_not]
      omega
    · rw [hstep, promptLoop, if_neg (by omega)]
  · refine ⟨?_, ?_, hstep⟩
    · cases hv : stoi line with
      | none => rw [hpass, hv]
      | some v =>
        rw [hpass, hv]
        simp only [decide_eq_true_eq]
        by_contra hc
        exact hout ((stoi_in_range_iff line).mp ⟨v, hv, by omega, by omega⟩)
    · cases hv : stoi line with
      | none =>
        rw [hpass, hv]
        exact hloop
      | some v =>
        rw [hpass, hv]
        show v < 10 ∨ v > 20
        by_contra hc
        exact hout ((stoi_in_range_iff line).mp ⟨v, hv, by omega, by omega⟩)

theorem prompt_accepts_iff_witness :
    promptLoop (0 + 2)
        { wordsToGuess := 25, guess := ['2', '5'],
          cin := { buf := [' ', '+', '0', '1', '5', ' ', 'x', '\n'], eofbit := false,
                   failbit := false } } =
      some (promptPass
        { wordsToGuess := 25, guess := ['2', '5'],
          cin := { buf := [' ', '+', '0', '1', '5', ' ', 'x', '\n'], eofbit := false,
                   failbit := false } }).1 :=
  ((prompt_accepts_iff
    { wordsToGuess := 25, guess := ['2', '5'],
      cin := { buf := [' ', '+', '0', '1', '5', ' ', 'x', '\n'], eofbit := false,
               failbit := false } }
    [' ', '+', '0', '1', '5', ' ', 'x'] [] (by decide) (by decide) rfl).1
    ⟨[' '], ['+'], ['0', '1', '5'], [' ', 'x'], rfl, by decide, Or.inr rfl, by decide,
      by decide, by decide, by decide, by decide⟩).2.2.2 0

end TextGames
